import Mathlib

/-!
# Formal model of the audio-preview playlist sequencing engine

A shallow embedding, in Lean 4, of the playlist store, the playback
transition logic, the absolute-time seek mapper and the list
serialization codec of the audio-preview web application
(`src/state.js`, `src/utils.js`, `src/listSaveLoad.js`, `src/main.js`).

JavaScript strings are modelled as `List Char`, JavaScript numbers as
`ℚ` (the values occurring in the playlist engine are durations in
seconds and millisecond timestamps; no transcendental operations are
involved), `null`/`undefined` as `Option`, and `Date.now()` as an
explicit `now : ℚ` parameter.  Each definition mirrors one function of
the source, keeping its name.
-/

namespace AudioPreview

/-! ## JavaScript string primitives -/

/-- The whitespace class used by JavaScript `String.prototype.trim` and
`parseInt` (ASCII whitespace, NBSP, BOM and the Unicode line separators). -/
def isJsWhitespace (c : Char) : Bool :=
  c = ' ' || c = '\t' || c = '\n' || c = '\r' || c = '\x0b' || c = '\x0c' ||
  c = '\u00A0' || c = '\uFEFF' || c = '\u2028' || c = '\u2029'

/-- JavaScript `String.prototype.trim`. -/
def jsTrim (s : List Char) : List Char :=
  ((s.dropWhile isJsWhitespace).reverse.dropWhile isJsWhitespace).reverse

/-- Auxiliary scanner for `jsSplit`. -/
def jsSplitAux (sep : Char) : List Char → List Char → List (List Char)
  | [], acc => [acc.reverse]
  | c :: rest, acc =>
    if c = sep then acc.reverse :: jsSplitAux sep rest []
    else jsSplitAux sep rest (c :: acc)

/-- JavaScript `String.prototype.split` with a single-character separator
(`"".split(sep) = [""]`, separators at the ends produce empty fields). -/
def jsSplit (sep : Char) (s : List Char) : List (List Char) :=
  jsSplitAux sep s []

/-- Auxiliary scanner for `splitLinesJs`: splitting on the regular
expression `/\r?\n/` (a `"\r\n"` pair is one separator, a bare `"\n"`
is one separator, a bare `"\r"` is not a separator). -/
def splitLinesAux : List Char → List Char → List (List Char)
  | [], acc => [acc.reverse]
  | '\r' :: '\n' :: rest, acc => acc.reverse :: splitLinesAux rest []
  | '\n' :: rest, acc => acc.reverse :: splitLinesAux rest []
  | c :: rest, acc => splitLinesAux rest (c :: acc)

/-- JavaScript `text.split(/\r?\n/)`. -/
def splitLinesJs (s : List Char) : List (List Char) :=
  splitLinesAux s []

/-- JavaScript `Array.prototype.join` with a one-character separator. -/
def joinChar (sep : Char) : List (List Char) → List Char
  | [] => []
  | [l] => l
  | l :: rest => l ++ sep :: joinChar sep rest

/-! ## Decimal digits: JavaScript `String(n)` and `parseInt(s, 10)` -/

/-- The decimal digit characters. -/
def digitCharOf : Nat → Char
  | 0 => '0' | 1 => '1' | 2 => '2' | 3 => '3' | 4 => '4'
  | 5 => '5' | 6 => '6' | 7 => '7' | 8 => '8' | _ => '9'

/-- Fuelled little-endian-to-big-endian decimal rendering; the fuel is
only a structural-recursion device, `natDigits` supplies enough of it. -/
def natDigitsAux : Nat → Nat → List Char
  | 0, _ => []
  | fuel + 1, n =>
    if n < 10 then [digitCharOf n]
    else natDigitsAux fuel (n / 10) ++ [digitCharOf (n % 10)]

/-- JavaScript `String(n)` for a natural number: its decimal digits. -/
def natDigits (n : Nat) : List Char :=
  natDigitsAux (n + 1) n

/-- Is `c` one of `'0'`-`'9'` (code points 48-57)? -/
def isAsciiDigit (c : Char) : Bool :=
  48 ≤ c.toNat && c.toNat ≤ 57

/-- The maximal leading run of decimal digits. -/
def leadingDigits (s : List Char) : List Char :=
  s.takeWhile isAsciiDigit

/-- Value of a digit string, most significant digit first. -/
def digitsToNat (ds : List Char) : Nat :=
  ds.foldl (fun a c => 10 * a + (c.toNat - 48)) 0

/-- JavaScript `parseInt(s, 10)`: skip leading whitespace, take an
optional sign, then the longest run of decimal digits, ignoring any
trailing characters; `none` models `NaN` (no digits at all). -/
def parseIntJs (s : List Char) : Option ℤ :=
  match s.dropWhile isJsWhitespace with
  | [] => none
  | c :: rest =>
    if c = '-' then
      let ds := leadingDigits rest
      if ds.isEmpty then none else some (-(digitsToNat ds : ℤ))
    else if c = '+' then
      let ds := leadingDigits rest
      if ds.isEmpty then none else some (digitsToNat ds : ℤ)
    else
      let ds := leadingDigits (c :: rest)
      if ds.isEmpty then none else some (digitsToNat ds : ℤ)

/-! ## `src/utils.js` -/

/-- JavaScript `%` (truncated remainder) on our rational model of
numbers, for a positive divisor as used by `formatMmSs` and the seek
mapper. -/
def ratTrunc (q : ℚ) : ℤ :=
  if q < 0 then -⌊-q⌋ else ⌊q⌋

/-- JavaScript `a % b`. -/
def jsMod (a b : ℚ) : ℚ :=
  a - b * (ratTrunc (a / b) : ℚ)

/-- JavaScript `String(s).padStart(2, '0')`. -/
def padStart2 (s : List Char) : List Char :=
  if s.length < 2 then List.replicate (2 - s.length) '0' ++ s else s

/-- `formatMmSs` from `src/utils.js`: format seconds as `"M:SS"`;
`null` (here `none`), `NaN`-free negatives format as `"0:00"`. -/
def formatMmSs (totalSeconds : Option ℚ) : List Char :=
  match totalSeconds with
  | none => ['0', ':', '0', '0']
  | some q =>
    if q < 0 then ['0', ':', '0', '0']
    else
      let m := ⌊q / 60⌋
      let s := ⌊jsMod q 60⌋
      natDigits m.toNat ++ ':' :: padStart2 (natDigits s.toNat)

/-- `parseMmSs` from `src/utils.js`: parse `"M:SS"`-shaped strings to
seconds, `none` for invalid input. -/
def parseMmSs (str : List Char) : Option ℚ :=
  let t := jsTrim str
  if t.isEmpty then none
  else
    let parts := jsSplit ':' t
    if parts.length ≠ 2 then none
    else
      match parseIntJs (parts.getD 0 []), parseIntJs (parts.getD 1 []) with
      | some m, some s =>
        if m < 0 || s < 0 || 60 ≤ s then none else some ((m * 60 + s : ℤ) : ℚ)
      | _, _ => none

/-! ## The playlist store (`src/state.js`) -/

/-- One playlist item (the `ListItem` typedef of `src/state.js`; `file`
is an opaque handle and is not part of the sequencing model; `bpm` and
`key` are the asynchronous analysis fields). -/
structure ListItem where
  id : Nat
  name : List Char
  loop : Bool
  maxLoopSeconds : Option ℚ
  duration : Option ℚ
  bpm : Option ℚ
  key : Option (List Char)
deriving DecidableEq, Repr, Inhabited

/-- The module-level mutable state of `src/state.js` (the realtime
key/chord fields back the `setRealTimeKey` accessor used by
`src/main.js`). -/
structure StoreState where
  items : List ListItem
  currentIndex : Option Nat
  startedAt : Option ℚ
  currentTime : ℚ
  isPaused : Bool
  realTimeKey : Option (List Char)
  realTimeChord : Option (List Char)
deriving DecidableEq, Repr, Inhabited

/-- `getTrackLength` from `src/utils.js`: the effective playable length
of one item. -/
def getTrackLength (item : ListItem) : ℚ :=
  match item.maxLoopSeconds with
  | some m => if 0 < m then m else item.duration.getD 0
  | none => item.duration.getD 0

/-- Recursive worker for `getListStartTimes` (the running prefix sum). -/
def startTimesFrom (t : ℚ) : List ListItem → List ℚ
  | [] => []
  | it :: rest => t :: startTimesFrom (t + getTrackLength it) rest

/-- `getListStartTimes` from `src/utils.js`. -/
def getListStartTimes (items : List ListItem) : List ℚ :=
  startTimesFrom 0 items

/-- The result of `getNextPlaybackAction`. -/
inductive PlaybackAction where
  | loop : PlaybackAction
  | next : Nat → PlaybackAction
  | stop : PlaybackAction
deriving DecidableEq, Repr

/-- The elapsed-seconds computation of `getNextPlaybackAction`:
`startedAt !== null ? (Date.now() - startedAt) / 1000 : 0`. -/
def elapsedSeconds (startedAt : Option ℚ) (now : ℚ) : ℚ :=
  match startedAt with
  | some s => (now - s) / 1000
  | none => 0

/-- Does `item.maxLoopSeconds != null && item.maxLoopSeconds > 0` hold? -/
def maxLoopPositive : Option ℚ → Bool
  | some m => decide (0 < m)
  | none => false

/-- Does `item.maxLoopSeconds == null || item.maxLoopSeconds <= 0` hold? -/
def maxLoopUnbounded : Option ℚ → Bool
  | some m => decide (m ≤ 0)
  | none => true

/-- The capped-loop bound (`item.maxLoopSeconds`, read under the
`maxLoopPositive` guard). -/
def maxLoopValue : Option ℚ → ℚ
  | some m => m
  | none => 0

/-- The branch cascade of `getNextPlaybackAction` once the current item
exists, factored over exactly the data it reads: the item's `loop` and
`maxLoopSeconds` fields, the computed `elapsed`, the cursor index and
the list length. -/
def decideCore (loopFlag : Bool) (maxLoop : Option ℚ) (elapsed : ℚ)
    (ci n : Nat) : PlaybackAction :=
  if loopFlag && maxLoopPositive maxLoop then
    if maxLoopValue maxLoop ≤ elapsed then
      if ci + 1 < n then PlaybackAction.next (ci + 1)
      else PlaybackAction.stop
    else PlaybackAction.loop
  else if loopFlag && maxLoopUnbounded maxLoop then
    PlaybackAction.loop
  else if ci + 1 < n then PlaybackAction.next (ci + 1)
  else PlaybackAction.stop

/-- `getNextPlaybackAction` from `src/state.js`. -/
def getNextPlaybackAction (s : StoreState) (now : ℚ) : PlaybackAction :=
  match s.currentIndex with
  | none => PlaybackAction.stop
  | some ci =>
    if hci : ci < s.items.length then
      let item := s.items.get ⟨ci, hci⟩
      decideCore item.loop item.maxLoopSeconds (elapsedSeconds s.startedAt now)
        ci s.items.length
    else PlaybackAction.stop

/-- `moveItem` from `src/state.js`: the two `splice` calls are modelled
by their `take`/`drop` semantics, the cursor adjustment verbatim. -/
def moveItem (fromIndex toIndex : ℤ) (s : StoreState) : StoreState :=
  if fromIndex < 0 ∨ (s.items.length : ℤ) ≤ fromIndex ∨
     toIndex < 0 ∨ (s.items.length : ℤ) ≤ toIndex then s
  else
    let f := fromIndex.toNat
    let t := toIndex.toNat
    let removed := s.items.getD f default
    let without := s.items.take f ++ s.items.drop (f + 1)
    let newItems := without.take t ++ removed :: without.drop t
    let newIndex : Option Nat :=
      match s.currentIndex with
      | none => none
      | some ci =>
        if ci = f then some t
        else if f < ci ∧ ci ≤ t then some (ci - 1)
        else if ci < f ∧ t ≤ ci then some (ci + 1)
        else some ci
    { s with items := newItems, currentIndex := newIndex }

/-- Modelled from the spec: `setRealTimeKey` (exported by the deployed
`state.js`, whose realtime-key section is not present under `src/`)
stores the latest realtime key/chord labels in the store and notifies
the realtime subscribers; it touches neither the item list nor the
cursor. -/
def setRealTimeKey (key chord : Option (List Char)) (s : StoreState) : StoreState :=
  { s with realTimeKey := key, realTimeChord := chord }

/-- The completion handler of `runRealtimeAnalysisOnce` in
`src/main.js`: when the key/chord analysis promise launched for track
`idx` resolves, the result is applied only under the guard
`getCurrentIndex() === idx`, where `s` is the store state at resolution
time. -/
def realtimeResultApply (idx : Nat) (key chord : Option (List Char))
    (s : StoreState) : StoreState :=
  if s.currentIndex = some idx then setRealTimeKey key chord s else s

/-! ## The list serialization codec (`src/listSaveLoad.js`) -/

/-- One parsed row of the list text format (also the shape `saveList`
in `src/main.js` maps items to before serializing). -/
structure ParsedRow where
  name : List Char
  loop : Bool
  maxLoopSeconds : Option ℚ
deriving DecidableEq, Repr, Inhabited

/-- The per-item projection used by `saveList` in `src/main.js`:
`{ name: it.name, loop: it.loop, maxLoopSeconds: it.maxLoopSeconds }`. -/
def rowOfItem (it : ListItem) : ParsedRow :=
  { name := it.name, loop := it.loop, maxLoopSeconds := it.maxLoopSeconds }

/-- The line template of `listToText`:
`name TAB (loop ? 1 : 0) TAB (maxLoopSeconds != null ? formatMmSs(...) : "")`. -/
def serializeRow (row : ParsedRow) : List Char :=
  row.name ++ '\t' :: (if row.loop then ['1'] else ['0']) ++
    '\t' :: (match row.maxLoopSeconds with
             | some q => formatMmSs (some q)
             | none => [])

/-- `listToText` from `src/listSaveLoad.js`. -/
def listToText (rows : List ParsedRow) : List Char :=
  joinChar '\n' (rows.map serializeRow)

/-- `parseLine` from `src/listSaveLoad.js`. -/
def parseLine (line : List Char) : Option ParsedRow :=
  let t := jsTrim line
  if t.isEmpty then none
  else
    let parts := jsSplit '\t' t
    if 3 ≤ parts.length then
      let maxStr := jsTrim (parts.getD (parts.length - 1) [])
      some { name := jsTrim (joinChar '\t' (parts.dropLast.dropLast)),
             loop := parts.getD (parts.length - 2) [] = ['1'],
             maxLoopSeconds := if maxStr.isEmpty then none else parseMmSs maxStr }
    else if parts.length = 2 then
      some { name := jsTrim (parts.getD 0 []),
             loop := parts.getD 1 [] = ['1'],
             maxLoopSeconds := none }
    else if parts.length = 1 then
      some { name := jsTrim (parts.getD 0 []), loop := false, maxLoopSeconds := none }
    else none

/-- The per-line step of `textToList`: keep a parsed row only when
`parsed && parsed.name` is truthy (a nonempty name). -/
def keepRow (line : List Char) : Option ParsedRow :=
  match parseLine line with
  | some p => if p.name.isEmpty then none else some p
  | none => none

/-- `textToList` from `src/listSaveLoad.js`. -/
def textToList (text : List Char) : List ParsedRow :=
  (splitLinesJs text).filterMap keepRow

/-! ## List reconciliation (`loadListData` in `src/state.js`) -/

/-- JavaScript `Array.prototype.findIndex`, with an explicit index
accumulator. -/
def findIndexAux {α : Type} (p : α → Bool) : List α → Nat → Option Nat
  | [], _ => none
  | x :: rest, i => if p x then some i else findIndexAux p rest (i + 1)

/-- JavaScript `Array.prototype.findIndex` (`none` models `-1`). -/
def jsFindIndex {α : Type} (p : α → Bool) (l : List α) : Option Nat :=
  findIndexAux p l 0

/-- The matching loop of `loadListData`: walk the parsed rows in order,
greedily matching each against the first not-yet-consumed current item
of the same name, collecting the matched items (with the row's
`loop`/`maxLoopSeconds` applied) and threading the consumed-id set. -/
def applyRows (current : List ListItem) :
    List ParsedRow → List Nat → List ListItem × List Nat
  | [], used => ([], used)
  | p :: rest, used =>
    match jsFindIndex
        (fun it => decide (it.name = p.name) && !decide (it.id ∈ used)) current with
    | some idx =>
      let item := { current.getD idx default with
                    loop := p.loop, maxLoopSeconds := p.maxLoopSeconds }
      let r := applyRows current rest (used ++ [(current.getD idx default).id])
      (item :: r.1, r.2)
    | none => applyRows current rest used

/-- `loadListData` from `src/state.js`. -/
def loadListData (parsed : List ParsedRow) (s : StoreState) : StoreState :=
  if parsed.isEmpty then s
  else
    let current := s.items
    let r := applyRows current parsed []
    let newItems := r.1 ++ current.filter (fun it => !decide (it.id ∈ r.2))
    let playingId : Option Nat :=
      match s.currentIndex with
      | some ci => if h : ci < current.length then some (current.get ⟨ci, h⟩).id else none
      | none => none
    let newIndex : Option Nat :=
      match playingId with
      | some pid =>
        match jsFindIndex (fun it => decide (it.id = pid)) newItems with
        | some i => some i
        | none => none
      | none => none
    { s with items := newItems, currentIndex := newIndex }

/-! ## The absolute-time seek mapper (`seekToAbsoluteListTime` in `src/main.js`) -/

/-- The track-resolution outcome of `seekToAbsoluteListTime` (the pure
part of the function; the subsequent audio-element and store commands
consume exactly these four values). -/
structure SeekResult where
  trackIndex : Nat
  positionInTrack : ℚ
  loopElapsed : ℚ
  positionInCurrentLoop : ℚ
deriving DecidableEq, Repr

/-- The `for`-loop of `seekToAbsoluteListTime`: the first index `i` in
`[start, start + fuel)` with `p i`, else `none` (the loop breaks on the
first hit). -/
def findFirstIdxAux (p : Nat → Bool) : Nat → Nat → Option Nat
  | 0, _ => none
  | fuel + 1, i => if p i then some i else findFirstIdxAux p fuel (i + 1)

/-- The `listTotal` reduction of `seekToAbsoluteListTime`:
`items.reduce((s, it) => s + getTrackLength(it), 0)`. -/
def listTotalLength (items : List ListItem) : ℚ :=
  items.foldl (fun s it => s + getTrackLength it) 0

/-- The clamp step of `seekToAbsoluteListTime`:
`Math.max(0, Math.min(listTimeSec, listTotal))`. -/
def clampListTime (items : List ListItem) (listTimeSec : ℚ) : ℚ :=
  max 0 (min listTimeSec (listTotalLength items))

/-- `seekToAbsoluteListTime` from `src/main.js` (its pure core: clamp,
resolve the track and in-track offsets; `none` models the early return
on an empty list). -/
def seekToAbsoluteListTime (items : List ListItem) (listTimeSec : ℚ) :
    Option SeekResult :=
  if items.length = 0 then none
  else
    let listStartTimes := getListStartTimes items
    let t := clampListTime items listTimeSec
    let found := findFirstIdxAux
      (fun i => decide (t < listStartTimes.getD i 0 + getTrackLength (items.getD i default)))
      items.length 0
    let res : Nat × ℚ :=
      match found with
      | some i => (i, t - listStartTimes.getD i 0)
      | none => (items.length - 1, getTrackLength (items.getD (items.length - 1) default))
    let item := items.getD res.1 default
    let duration := item.duration.getD 0
    let loopElapsed := if 0 < duration then (⌊res.2 / duration⌋ : ℚ) * duration else 0
    let positionInCurrentLoop := if 0 < duration then jsMod res.2 duration else 0
    some { trackIndex := res.1, positionInTrack := res.2,
           loopElapsed := loopElapsed, positionInCurrentLoop := positionInCurrentLoop }

/-! ## Reference-semantics model of `getItems` (for the snapshot claim)

`getItems` returns `[...items]`: a fresh array whose slots hold the very
same item-object references as the store's own array.  To reason about
mutation through the returned objects we model the object graph
explicitly: a heap of item objects addressed by `Nat`, and a store that
holds a list of addresses. -/

/-- The object heap: item objects addressed by position. -/
abbrev Heap := List ListItem

/-- The store's own array of item-object references. -/
structure RefStore where
  itemAddrs : List Nat
deriving DecidableEq, Repr

/-- `getItems` under reference semantics: `[...items]` builds a fresh
array containing the same object references. -/
def getItemsShallow (s : RefStore) : List Nat :=
  s.itemAddrs

/-- Dereference one item object. -/
def readItem (h : Heap) (a : Nat) : ListItem :=
  List.getD h a default

/-- Mutating an item object in place (e.g. `obj.loop = true` through a
reference obtained from a snapshot). -/
def writeItem (h : Heap) (a : Nat) (v : ListItem) : Heap :=
  List.set h a v

/-- The item list an observer sees through the store: the store's
references, dereferenced. -/
def observeItems (h : Heap) (s : RefStore) : List ListItem :=
  s.itemAddrs.map (readItem h)

/-! ## Auxiliary predicates used in the statements -/

/-- An item with the loop-specific fields blanked; two item lists agree
up to loop settings exactly when their `stripLoopFields` images agree. -/
def stripLoopFields (it : ListItem) : ListItem :=
  { it with loop := false, maxLoopSeconds := none }

/-- A name the flat text format can carry verbatim: nonempty, stable
under `trim`, and free of line terminators. -/
def goodExportName (name : List Char) : Prop :=
  name ≠ [] ∧ jsTrim name = name ∧ ∀ c ∈ name, c ≠ '\n' ∧ c ≠ '\r'

instance (name : List Char) : Decidable (goodExportName name) := by
  unfold goodExportName; infer_instance

/-- The literal `"M:SS"` shape produced by `formatMmSs`: a nonempty
digit run, a colon, and exactly two digits spelling a value below 60. -/
def mmSsShape (s : List Char) : Bool :=
  match jsSplit ':' s with
  | [mPart, sPart] =>
    !mPart.isEmpty && mPart.all isAsciiDigit &&
      (sPart.length == 2) && sPart.all isAsciiDigit && digitsToNat sPart < 60
  | _ => false

/-! ## Concrete instances used by the example-based statements -/

/-- Demo list with effective lengths `[10, 20, 5]` (a capped loop, a
plain track with a known duration, and a capped loop shorter than its
duration). -/
def seekDemoItems : List ListItem :=
  [⟨1, ['A'], true, some 10, none, none, none⟩,
   ⟨2, ['B'], false, none, some 20, none, none⟩,
   ⟨3, ['C'], true, some 5, some 7, none, none⟩]

/-- A store playing the second entry of a three-item list `A, B, C`. -/
def sABC : StoreState :=
  ⟨[⟨1, ['A'], false, none, some 5, none, none⟩,
    ⟨2, ['B'], true, some 7, some 6, none, none⟩,
    ⟨3, ['C'], false, none, some 4, none, none⟩],
   some 1, some 0, 0, false, none, none⟩

/-- Import rows listing `C` then `A` (the reconciliation scenario). -/
def demoRows : List ParsedRow :=
  [⟨['C'], true, some 9⟩, ⟨['A'], false, none⟩]

/-- Expected result of importing `demoRows` into `sABC`: order `C, A, B`,
with `B` untouched and the cursor following `B` to index 2. -/
def sCAB : StoreState :=
  ⟨[⟨3, ['C'], true, some 9, some 4, none, none⟩,
    ⟨1, ['A'], false, none, some 5, none, none⟩,
    ⟨2, ['B'], true, some 7, some 6, none, none⟩],
   some 2, some 0, 0, false, none, none⟩

/-- A store whose single item holds a negative loop cap (a value that
the import codec can never produce, but the item type allows). -/
def sNeg : StoreState :=
  ⟨[⟨1, ['a'], false, some (-3), none, none, none⟩], none, none, 0, false, none, none⟩

/-- A store with a bounded loop on the first of two tracks. -/
def sLoop30 : StoreState :=
  ⟨[⟨1, ['A'], true, some 30, none, none, none⟩,
    ⟨2, ['B'], false, none, none, none, none⟩],
   some 0, some 0, 0, false, none, none⟩

/-- One-object heap for the aliasing counterexample. -/
def aliasHeap : Heap :=
  [⟨1, ['a'], false, none, none, none, none⟩]

/-- A store holding a reference to the single heap object. -/
def aliasStore : RefStore := ⟨[0]⟩

/-- The single heap object after an in-place field write
(`snapshot[0].loop = true`). -/
def aliasMutated : ListItem :=
  ⟨1, ['a'], true, none, none, none, none⟩

/-! ## Theorems

### The playback transition engine -/

theorem maxLoopPositive_eq_not_unbounded (o : Option ℚ) :
    maxLoopPositive o = !maxLoopUnbounded o := by
  cases o with
  | none => rfl
  | some m =>
    show decide (0 < m) = !decide (m ≤ 0)
    rw [← decide_not]
    exact decide_eq_decide.mpr not_le.symm

theorem getNextPlaybackAction_eq_decideCore (s : StoreState) (now : ℚ)
    (ci : Nat) (hci : s.currentIndex = some ci) (hlt : ci < s.items.length) :
    getNextPlaybackAction s now =
      decideCore (s.items.get ⟨ci, hlt⟩).loop (s.items.get ⟨ci, hlt⟩).maxLoopSeconds
        (elapsedSeconds s.startedAt now) ci s.items.length := by
  simp only [getNextPlaybackAction, hci]
  rw [dif_pos hlt]

/-- C1: with `loop = true` and a positive `maxLoopSeconds = m` on the
in-range current item, `getNextPlaybackAction` answers LOOP while the
elapsed time is below `m`, and once the elapsed time reaches `m` it
answers NEXT of the successor index when one exists in the list, else
STOP. -/
theorem getNextPlaybackAction_capped_loop (s : StoreState) (now : ℚ)
    (ci : Nat) (m : ℚ) (hci : s.currentIndex = some ci)
    (hlt : ci < s.items.length)
    (hloop : (s.items.get ⟨ci, hlt⟩).loop = true)
    (hmax : (s.items.get ⟨ci, hlt⟩).maxLoopSeconds = some m) (hm : 0 < m) :
    (elapsedSeconds s.startedAt now < m →
      getNextPlaybackAction s now = PlaybackAction.loop) ∧
    (m ≤ elapsedSeconds s.startedAt now →
      getNextPlaybackAction s now =
        if ci + 1 < s.items.length then PlaybackAction.next (ci + 1)
        else PlaybackAction.stop) := by
  rw [getNextPlaybackAction_eq_decideCore s now ci hci hlt, hloop, hmax]
  have hpos : maxLoopPositive (some m) = true := by
    simp [maxLoopPositive, hm]
  constructor
  · intro hlt2
    simp only [decideCore, hpos, Bool.true_and, if_true, maxLoopValue]
    rw [if_neg (not_le.mpr hlt2)]
  · intro hge
    simp only [decideCore, hpos, Bool.true_and, if_true, maxLoopValue]
    rw [if_pos hge]

theorem getNextPlaybackAction_capped_loop_witness :
    getNextPlaybackAction sLoop30 5000 = PlaybackAction.loop ∧
    getNextPlaybackAction { sLoop30 with startedAt := some (-31000) } 5000 =
      PlaybackAction.next 1 := by
  constructor
  · exact (getNextPlaybackAction_capped_loop sLoop30 5000 0 30 rfl
      (by decide) (by decide) (by decide) (by norm_num)).1
      (by norm_num [elapsedSeconds, sLoop30])
  · have h := (getNextPlaybackAction_capped_loop
      { sLoop30 with startedAt := some (-31000) } 5000 0 30 rfl
      (by decide) (by decide) (by decide) (by norm_num)).2
      (by norm_num [elapsedSeconds, sLoop30])
    simpa [sLoop30] using h

/-- C6: `getNextPlaybackAction` depends only on the cursor index, the
current item's `loop` and `maxLoopSeconds`, the elapsed time and the
list length; with `loop = false` it answers NEXT or STOP, never LOOP;
and with `loop = true` and a `null`, absent or nonpositive
`maxLoopSeconds` it answers LOOP whatever the elapsed time is. -/
theorem getNextPlaybackAction_pure_and_flags :
    (∀ (s₁ s₂ : StoreState) (now₁ now₂ : ℚ) (ci : Nat)
       (h₁ : ci < s₁.items.length) (h₂ : ci < s₂.items.length),
       s₁.currentIndex = some ci → s₂.currentIndex = some ci →
       s₁.items.length = s₂.items.length →
       elapsedSeconds s₁.startedAt now₁ = elapsedSeconds s₂.startedAt now₂ →
       (s₁.items.get ⟨ci, h₁⟩).loop = (s₂.items.get ⟨ci, h₂⟩).loop →
       (s₁.items.get ⟨ci, h₁⟩).maxLoopSeconds = (s₂.items.get ⟨ci, h₂⟩).maxLoopSeconds →
       getNextPlaybackAction s₁ now₁ = getNextPlaybackAction s₂ now₂) ∧
    (∀ (s : StoreState) (now : ℚ) (ci : Nat) (h : ci < s.items.length),
       s.currentIndex = some ci → (s.items.get ⟨ci, h⟩).loop = false →
       getNextPlaybackAction s now = PlaybackAction.next (ci + 1) ∨
       getNextPlaybackAction s now = PlaybackAction.stop) ∧
    (∀ (s : StoreState) (now : ℚ) (ci : Nat) (h : ci < s.items.length),
       s.currentIndex = some ci → (s.items.get ⟨ci, h⟩).loop = true →
       maxLoopUnbounded (s.items.get ⟨ci, h⟩).maxLoopSeconds = true →
       getNextPlaybackAction s now = PlaybackAction.loop) := by
  refine ⟨?_, ?_, ?_⟩
  · intro s₁ s₂ now₁ now₂ ci h₁ h₂ hc₁ hc₂ hlen helapsed hloop hmax
    rw [getNextPlaybackAction_eq_decideCore s₁ now₁ ci hc₁ h₁,
        getNextPlaybackAction_eq_decideCore s₂ now₂ ci hc₂ h₂,
        hloop, hmax, hlen, helapsed]
  · intro s now ci h hc hloop
    rw [getNextPlaybackAction_eq_decideCore s now ci hc h, hloop]
    by_cases hn : ci + 1 < s.items.length
    · left
      simp [decideCore, hn]
    · right
      simp [decideCore, hn]
  · intro s now ci h hc hloop hub
    rw [getNextPlaybackAction_eq_decideCore s now ci hc h, hloop]
    have hpos : maxLoopPositive (s.items.get ⟨ci, h⟩).maxLoopSeconds = false := by
      rw [maxLoopPositive_eq_not_unbounded, hub]
      rfl
    simp only [List.get_eq_getElem] at hpos hub
    simp [decideCore, hpos, hub]

theorem getNextPlaybackAction_pure_and_flags_witness :
    getNextPlaybackAction { sLoop30 with currentIndex := some 1 } 5000 =
      PlaybackAction.stop := by
  have h := (getNextPlaybackAction_pure_and_flags).2.1
    { sLoop30 with currentIndex := some 1 } 5000 1 (by decide) rfl (by decide)
  rcases h with h | h
  · exact absurd h (by decide)
  · exact h

/-! ### The stale-result guard of the realtime analysis -/

/-- C8: when the key/chord analysis launched for track `idx` resolves in
a store state whose cursor is no longer `idx`, the completion handler
leaves the store untouched (in particular the realtime key/chord state),
and in no case does it write to any item. -/
theorem realtimeResultApply_stale_guard :
    ∀ (s : StoreState) (idx : Nat) (key chord : Option (List Char)),
      (realtimeResultApply idx key chord s).items = s.items ∧
      (s.currentIndex ≠ some idx → realtimeResultApply idx key chord s = s) := by
  intro s idx key chord
  constructor
  · by_cases hc : s.currentIndex = some idx
    · simp [realtimeResultApply, hc, setRealTimeKey]
    · simp [realtimeResultApply, hc]
  · intro hne
    simp [realtimeResultApply, hne]

theorem realtimeResultApply_stale_guard_witness :
    realtimeResultApply 1 (some ['C']) (some ['G']) sLoop30 = sLoop30 :=
  (realtimeResultApply_stale_guard sLoop30 1 (some ['C']) (some ['G'])).2 (by decide)

/-! ### The snapshot returned by `getItems` -/

/-- C9 fails on the code: `getItems` returns `[...items]`, a shallow
copy, so the item objects inside the snapshot are the store's own.
Writing a field through the first object of the snapshot changes what a
subsequent read through the store observes. -/
theorem getItemsShallow_alias_counterexample :
    observeItems
        (writeItem aliasHeap ((getItemsShallow aliasStore).getD 0 0) aliasMutated)
        aliasStore ≠
      observeItems aliasHeap aliasStore := by
  decide

/-- C9 amended: the spread in `getItems` protects only the array, not
the items: a heap write outside the store's references leaves every
observation unchanged, while a write through the `i`-th object reference
of the snapshot changes the observed item list exactly at position `i`. -/
theorem getItemsShallow_snapshot_aliasing :
    (∀ (h : Heap) (s : RefStore) (a : Nat) (v : ListItem), a ∉ s.itemAddrs →
       observeItems (writeItem h a v) s = observeItems h s) ∧
    (∀ (h : Heap) (s : RefStore) (i : Nat) (v : ListItem)
       (hi : i < (getItemsShallow s).length),
       s.itemAddrs.Nodup → (∀ a ∈ s.itemAddrs, a < h.length) →
       observeItems (writeItem h ((getItemsShallow s).get ⟨i, hi⟩) v) s =
         (observeItems h s).set i v) := by
  constructor
  · intro h s a v hnotin
    unfold observeItems
    refine List.map_congr_left ?_
    intro addr haddr
    have hne : a ≠ addr := fun heq => hnotin (heq ▸ haddr)
    unfold readItem writeItem
    rw [List.getD_eq_getElem?_getD, List.getD_eq_getElem?_getD,
        List.getElem?_set_ne hne]
  · intro h s i v hi hnd hvalid
    have hi' : i < s.itemAddrs.length := hi
    refine List.ext_getElem ?_ ?_
    · simp [observeItems, writeItem]
    · intro j h₁ h₂
      have hj : j < s.itemAddrs.length := by
        simpa [observeItems] using h₁
      by_cases hij : j = i
      · subst hij
        have haddr : s.itemAddrs[j] < h.length :=
          hvalid _ (List.getElem_mem hj)
        simp only [observeItems, writeItem, readItem, getItemsShallow,
          List.getElem_map, List.get_eq_getElem]
        rw [List.getElem_set_self, List.getD_eq_getElem?_getD,
          List.getElem?_set_self haddr]
        rfl
      · have hne : s.itemAddrs[i] ≠ s.itemAddrs[j] := by
          rw [ne_eq, hnd.getElem_inj_iff]
          omega
        simp only [observeItems, writeItem, readItem, getItemsShallow,
          List.getElem_map, List.get_eq_getElem]
        rw [List.getElem_set_ne (by omega) (by simpa using hj),
          List.getElem_map]
        unfold readItem
        rw [List.getD_eq_getElem?_getD, List.getD_eq_getElem?_getD,
          List.getElem?_set_ne hne]

theorem splice_remove_length {α : Type} (l : List α) (f : Nat) (hf : f < l.length) :
    (l.take f ++ l.drop (f + 1)).length = l.length - 1 := by
  simp only [List.length_append, List.length_take, List.length_drop]
  omega

theorem splice_remove_getElem_lt {α : Type} (l : List α) (f j : Nat)
    (hf : f < l.length) (hj : j < f) :
    (l.take f ++ l.drop (f + 1)).get ⟨j, by rw [splice_remove_length l f hf]; omega⟩ =
      l.get ⟨j, by omega⟩ := by
  simp only [List.get_eq_getElem]
  rw [List.getElem_append_left (by simp only [List.length_take]; omega)]
  exact List.getElem_take l

theorem splice_remove_getElem_ge {α : Type} (l : List α) (f j : Nat)
    (hf : f < l.length) (hj : f ≤ j) (hj2 : j < l.length - 1) :
    (l.take f ++ l.drop (f + 1)).get ⟨j, by rw [splice_remove_length l f hf]; omega⟩ =
      l.get ⟨j + 1, by omega⟩ := by
  simp only [List.get_eq_getElem]
  rw [List.getElem_append_right (by simp only [List.length_take]; omega)]
  rw [List.getElem_drop]
  congr 1
  simp only [List.length_take]
  omega

theorem splice_insert_length {α : Type} (w : List α) (t : Nat) (x : α)
    (ht : t ≤ w.length) :
    (w.take t ++ x :: w.drop t).length = w.length + 1 := by
  simp only [List.length_append, List.length_take, List.length_cons,
    List.length_drop]
  omega

theorem splice_insert_getElem_lt {α : Type} (w : List α) (t j : Nat) (x : α)
    (ht : t ≤ w.length) (hj : j < t) :
    (w.take t ++ x :: w.drop t).get ⟨j, by rw [splice_insert_length w t x ht]; omega⟩ =
      w.get ⟨j, by omega⟩ := by
  simp only [List.get_eq_getElem]
  rw [List.getElem_append_left (by simp only [List.length_take]; omega)]
  exact List.getElem_take w

theorem splice_insert_getElem_self {α : Type} (w : List α) (t : Nat) (x : α)
    (ht : t ≤ w.length) :
    (w.take t ++ x :: w.drop t).get ⟨t, by rw [splice_insert_length w t x ht]; omega⟩ = x := by
  simp only [List.get_eq_getElem]
  rw [List.getElem_append_right (by simp only [List.length_take]; omega)]
  simp only [List.length_take, Nat.min_eq_left ht, Nat.sub_self,
    List.getElem_cons_zero]

theorem splice_insert_getElem_gt {α : Type} (w : List α) (t j : Nat) (x : α)
    (ht : t ≤ w.length) (hj : t < j) (hj2 : j < w.length + 1) :
    (w.take t ++ x :: w.drop t).get ⟨j, by rw [splice_insert_length w t x ht]; omega⟩ =
      w.get ⟨j - 1, by omega⟩ := by
  simp only [List.get_eq_getElem]
  rw [List.getElem_append_right (by simp only [List.length_take]; omega)]
  have hmin : (w.take t).length = t := by
    simp only [List.length_take]
    omega
  simp only [hmin]
  obtain ⟨d, hd⟩ : ∃ d, j - t = d + 1 := ⟨j - t - 1, by omega⟩
  simp only [hd, List.getElem_cons_succ]
  rw [List.getElem_drop]
  congr 1
  omega

theorem splice_remove_perm {α : Type} (l : List α) (f : Nat) (hf : f < l.length) :
    List.Perm l (l[f] :: (l.take f ++ l.drop (f + 1))) := by
  conv_lhs => rw [← List.take_append_drop f l, ← List.getElem_cons_drop l f hf]
  exact List.perm_middle

theorem splice_insert_perm {α : Type} (w : List α) (t : Nat) (x : α) :
    List.Perm (w.take t ++ x :: w.drop t) (x :: w) := by
  have h := @List.perm_middle _ x (w.take t) (w.drop t)
  rw [List.take_append_drop] at h
  exact h

theorem list_get_congr {α : Type} (l : List α) {i j : Nat} (hi : i < l.length)
    (hj : j < l.length) (hij : i = j) : l.get ⟨i, hi⟩ = l.get ⟨j, hj⟩ := by
  subst hij
  rfl

theorem moveItem_in_range_eq (s : StoreState) (f t : ℤ)
    (h0f : 0 ≤ f) (hfl : f < (s.items.length : ℤ))
    (h0t : 0 ≤ t) (htl : t < (s.items.length : ℤ)) :
    moveItem f t s =
      { s with
        items :=
          (s.items.take f.toNat ++ s.items.drop (f.toNat + 1)).take t.toNat ++
            s.items.getD f.toNat default ::
              (s.items.take f.toNat ++ s.items.drop (f.toNat + 1)).drop t.toNat,
        currentIndex :=
          match s.currentIndex with
          | none => none
          | some ci =>
            if ci = f.toNat then some t.toNat
            else if f.toNat < ci ∧ ci ≤ t.toNat then some (ci - 1)
            else if ci < f.toNat ∧ t.toNat ≤ ci then some (ci + 1)
            else some ci } := by
  unfold moveItem
  rw [if_neg (by omega)]

/-- C5: for in-range indices `moveItem` keeps the multiset of items and
repoints the cursor at the very item it referenced before the move (the
moved item itself when it was current, the standard shift rule
otherwise); for any out-of-range index it is a no-op on the whole
store. -/
theorem moveItem_cursor_and_multiset :
    (∀ (s : StoreState) (f t : ℤ),
       f < 0 ∨ (s.items.length : ℤ) ≤ f ∨ t < 0 ∨ (s.items.length : ℤ) ≤ t →
       moveItem f t s = s) ∧
    (∀ (s : StoreState) (f t : ℤ),
       0 ≤ f → f < (s.items.length : ℤ) → 0 ≤ t → t < (s.items.length : ℤ) →
       List.Perm (moveItem f t s).items s.items ∧
       (∀ (ci : Nat) (h : ci < s.items.length), s.currentIndex = some ci →
          ∃ (j : Nat) (hj : j < (moveItem f t s).items.length),
            (moveItem f t s).currentIndex = some j ∧
            (moveItem f t s).items.get ⟨j, hj⟩ = s.items.get ⟨ci, h⟩)) := by
  constructor
  · intro s f t hcond
    unfold moveItem
    rw [if_pos hcond]
  · intro s f t h0f hfl h0t htl
    rw [moveItem_in_range_eq s f t h0f hfl h0t htl]
    dsimp only
    have hF : f.toNat < s.items.length := by omega
    have hT : t.toNat < s.items.length := by omega
    have hn1 : 1 ≤ s.items.length := by omega
    have hwlen : (s.items.take f.toNat ++ s.items.drop (f.toNat + 1)).length =
        s.items.length - 1 := splice_remove_length s.items f.toNat hF
    have hTw : t.toNat ≤ (s.items.take f.toNat ++ s.items.drop (f.toNat + 1)).length := by
      omega
    have hD : s.items.getD f.toNat default = s.items.get ⟨f.toNat, hF⟩ := by
      rw [List.getD_eq_getElem s.items default hF]
      rfl
    have hlen : ((s.items.take f.toNat ++ s.items.drop (f.toNat + 1)).take t.toNat ++
        s.items.getD f.toNat default ::
          (s.items.take f.toNat ++ s.items.drop (f.toNat + 1)).drop t.toNat).length =
        s.items.length := by
      rw [splice_insert_length _ _ _ hTw]
      omega
    constructor
    · have hperm1 := splice_insert_perm
        (s.items.take f.toNat ++ s.items.drop (f.toNat + 1)) t.toNat
        (s.items.getD f.toNat default)
      have hperm2 := splice_remove_perm s.items f.toNat hF
      rw [hD] at hperm1
      rw [hD]
      exact hperm1.trans hperm2.symm
    · intro ci h hc
      simp only [hc]
      by_cases hcf : ci = f.toNat
      · rw [if_pos hcf]
        refine ⟨t.toNat, by omega, rfl, ?_⟩
        have hself := splice_insert_getElem_self
          (s.items.take f.toNat ++ s.items.drop (f.toNat + 1)) t.toNat
          (s.items.getD f.toNat default) hTw
        rw [hself, hD]
        exact list_get_congr s.items hF h hcf.symm
      · rw [if_neg hcf]
        by_cases hmid : f.toNat < ci ∧ ci ≤ t.toNat
        · rw [if_pos hmid]
          refine ⟨ci - 1, by omega, rfl, ?_⟩
          have h1 := splice_insert_getElem_lt
            (s.items.take f.toNat ++ s.items.drop (f.toNat + 1)) t.toNat (ci - 1)
            (s.items.getD f.toNat default) hTw (by omega)
          have h2 := splice_remove_getElem_ge s.items f.toNat (ci - 1) hF
            (by omega) (by omega)
          rw [h1, h2]
          exact list_get_congr s.items _ h (by omega)
        · rw [if_neg hmid]
          by_cases hmid2 : ci < f.toNat ∧ t.toNat ≤ ci
          · rw [if_pos hmid2]
            refine ⟨ci + 1, by omega, rfl, ?_⟩
            have h1 := splice_insert_getElem_gt
              (s.items.take f.toNat ++ s.items.drop (f.toNat + 1)) t.toNat (ci + 1)
              (s.items.getD f.toNat default) hTw (by omega) (by omega)
            have h2 := splice_remove_getElem_lt s.items f.toNat (ci + 1 - 1) hF
              (by omega)
            rw [h1, h2]
            exact list_get_congr s.items _ h (by omega)
          · rw [if_neg hmid2]
            refine ⟨ci, by omega, rfl, ?_⟩
            by_cases hlo : ci < f.toNat
            · have hciT : ci < t.toNat := by omega
              have h1 := splice_insert_getElem_lt
                (s.items.take f.toNat ++ s.items.drop (f.toNat + 1)) t.toNat ci
                (s.items.getD f.toNat default) hTw hciT
              have h2 := splice_remove_getElem_lt s.items f.toNat ci hF hlo
              rw [h1, h2]
            · have hhi : f.toNat < ci := by omega
              have hTci : t.toNat < ci := by omega
              have h1 := splice_insert_getElem_gt
                (s.items.take f.toNat ++ s.items.drop (f.toNat + 1)) t.toNat ci
                (s.items.getD f.toNat default) hTw hTci (by omega)
              have h2 := splice_remove_getElem_ge s.items f.toNat (ci - 1) hF
                (by omega) (by omega)
              rw [h1, h2]
              exact list_get_congr s.items _ h (by omega)

theorem moveItem_cursor_and_multiset_witness :
    List.Perm (moveItem 0 1 sABC).items sABC.items ∧
    moveItem (-1) 0 sABC = sABC := by
  constructor
  · exact ((moveItem_cursor_and_multiset).2 sABC 0 1 (by norm_num)
      (by norm_num [sABC]) (by norm_num) (by norm_num [sABC])).1
  · exact (moveItem_cursor_and_multiset).1 sABC (-1) 0 (by norm_num)

theorem getItemsShallow_snapshot_aliasing_witness :
    observeItems
        (writeItem aliasHeap ((getItemsShallow aliasStore).get ⟨0, by decide⟩)
          aliasMutated) aliasStore =
      (observeItems aliasHeap aliasStore).set 0 aliasMutated :=
  (getItemsShallow_snapshot_aliasing).2 aliasHeap aliasStore 0 aliasMutated
    (by decide) (by decide) (by decide)

/-! ### Decimal rendering and parsing -/

theorem isAsciiDigit_bounds {c : Char} (h : isAsciiDigit c = true) :
    48 ≤ c.toNat ∧ c.toNat ≤ 57 := by
  simpa [isAsciiDigit] using h

theorem digit_char_ne {c : Char} (h : isAsciiDigit c = true) (d : Char)
    (hd : d.toNat < 48 ∨ 57 < d.toNat) : c ≠ d := by
  obtain ⟨h1, h2⟩ := isAsciiDigit_bounds h
  intro heq
  subst heq
  omega

theorem digit_not_ws {c : Char} (h : isAsciiDigit c = true) :
    isJsWhitespace c = false := by
  obtain ⟨h1, h2⟩ := isAsciiDigit_bounds h
  rw [Bool.eq_false_iff]
  intro hws
  simp only [isJsWhitespace, Bool.or_eq_true, decide_eq_true_eq] at hws
  rcases hws with ((((((((hc | hc) | hc) | hc) | hc) | hc) | hc) | hc) | hc) | hc <;>
    (subst hc; revert h1 h2; decide)

theorem digitCharOf_toNat {n : Nat} (h : n < 10) :
    (digitCharOf n).toNat = 48 + n := by
  interval_cases n <;> decide

theorem isAsciiDigit_digitCharOf {n : Nat} (h : n < 10) :
    isAsciiDigit (digitCharOf n) = true := by
  interval_cases n <;> decide

theorem natDigitsAux_fuel : ∀ (n f₁ f₂ : Nat), n < f₁ → n < f₂ →
    natDigitsAux f₁ n = natDigitsAux f₂ n := by
  intro n
  induction n using Nat.strong_induction_on with
  | _ n ih =>
    intro f₁ f₂ h₁ h₂
    match f₁, f₂ with
    | g₁ + 1, g₂ + 1 =>
      simp only [natDigitsAux]
      by_cases hn : n < 10
      · simp [hn]
      · simp only [hn, if_false]
        have hdiv : n / 10 < n := Nat.div_lt_self (by omega) (by omega)
        rw [ih (n / 10) hdiv g₁ g₂ (by omega) (by omega)]

theorem mem_natDigitsAux_digit : ∀ (f n : Nat) (c : Char),
    c ∈ natDigitsAux f n → isAsciiDigit c = true := by
  intro f
  induction f with
  | zero => intro n c hc; simp [natDigitsAux] at hc
  | succ g ih =>
    intro n c hc
    simp only [natDigitsAux] at hc
    by_cases hn : n < 10
    · simp only [hn, if_true, List.mem_singleton] at hc
      subst hc
      exact isAsciiDigit_digitCharOf hn
    · simp only [hn, if_false, List.mem_append, List.mem_singleton] at hc
      rcases hc with hc | hc
      · exact ih (n / 10) c hc
      · subst hc
        exact isAsciiDigit_digitCharOf (Nat.mod_lt n (by omega))

theorem natDigits_all_digits {n : Nat} {c : Char} (hc : c ∈ natDigits n) :
    isAsciiDigit c = true :=
  mem_natDigitsAux_digit (n + 1) n c hc

theorem natDigits_ne_nil (n : Nat) : natDigits n ≠ [] := by
  unfold natDigits natDigitsAux
  by_cases hn : n < 10
  · simp [hn]
  · simp [hn]

theorem digitsToNat_append_singleton (xs : List Char) (c : Char) :
    digitsToNat (xs ++ [c]) = 10 * digitsToNat xs + (c.toNat - 48) := by
  unfold digitsToNat
  rw [List.foldl_append]
  rfl

theorem digitsToNat_natDigitsAux : ∀ (n f : Nat), n < f →
    digitsToNat (natDigitsAux f n) = n := by
  intro n
  induction n using Nat.strong_induction_on with
  | _ n ih =>
    intro f hf
    match f with
    | g + 1 =>
      simp only [natDigitsAux]
      by_cases hn : n < 10
      · simp only [hn, if_true]
        show digitsToNat [digitCharOf n] = n
        unfold digitsToNat
        simp [digitCharOf_toNat hn]
      · simp only [hn, if_false]
        have hdiv : n / 10 < n := Nat.div_lt_self (by omega) (by omega)
        rw [digitsToNat_append_singleton,
          ih (n / 10) hdiv g (by omega),
          digitCharOf_toNat (Nat.mod_lt n (by omega))]
        omega

theorem digitsToNat_natDigits (n : Nat) : digitsToNat (natDigits n) = n :=
  digitsToNat_natDigitsAux n (n + 1) (Nat.lt_succ_self n)

theorem digitsToNat_cons_zero (ds : List Char) :
    digitsToNat ('0' :: ds) = digitsToNat ds := by
  unfold digitsToNat
  rfl

theorem digitsToNat_replicate_zero (k : Nat) (ds : List Char) :
    digitsToNat (List.replicate k '0' ++ ds) = digitsToNat ds := by
  induction k with
  | zero => rfl
  | succ m ih =>
    rw [List.replicate_succ, List.cons_append, digitsToNat_cons_zero, ih]

theorem digitsToNat_padStart2 (ds : List Char) :
    digitsToNat (padStart2 ds) = digitsToNat ds := by
  unfold padStart2
  split
  · exact digitsToNat_replicate_zero _ ds
  · rfl

theorem padStart2_all_digits {ds : List Char}
    (h : ∀ c ∈ ds, isAsciiDigit c = true) :
    ∀ c ∈ padStart2 ds, isAsciiDigit c = true := by
  intro c hc
  unfold padStart2 at hc
  split at hc
  · rcases List.mem_append.mp hc with hc | hc
    · rw [List.eq_of_mem_replicate hc]
      decide
    · exact h c hc
  · exact h c hc

theorem padStart2_ne_nil {ds : List Char} (h : ds ≠ []) : padStart2 ds ≠ [] := by
  unfold padStart2
  split
  · simp [h]
  · exact h

theorem dropWhile_eq_self_of_all {p : Char → Bool} {l : List Char}
    (h : ∀ c ∈ l, p c = false) : l.dropWhile p = l := by
  cases l with
  | nil => rfl
  | cons c cs =>
    rw [List.dropWhile_cons]
    simp [h c (List.mem_cons_self c cs)]

theorem jsTrim_eq_self_of_no_ws {l : List Char}
    (h : ∀ c ∈ l, isJsWhitespace c = false) : jsTrim l = l := by
  unfold jsTrim
  rw [dropWhile_eq_self_of_all h,
    dropWhile_eq_self_of_all (fun c hc => h c (List.mem_reverse.mp hc)),
    List.reverse_reverse]

theorem takeWhile_eq_self_of_all {p : Char → Bool} {l : List Char}
    (h : ∀ c ∈ l, p c = true) : l.takeWhile p = l :=
  List.takeWhile_eq_self_iff.mpr h

theorem jsSplitAux_ne_nil (sep : Char) :
    ∀ (l acc : List Char), jsSplitAux sep l acc ≠ [] := by
  intro l
  induction l with
  | nil => intro acc; simp [jsSplitAux]
  | cons c cs ih =>
    intro acc
    simp only [jsSplitAux]
    by_cases hc : c = sep
    · simp [hc]
    · simpa [hc] using ih (c :: acc)

theorem jsSplitAux_append_sep (sep : Char) :
    ∀ (x y acc : List Char),
      jsSplitAux sep (x ++ sep :: y) acc =
        jsSplitAux sep x acc ++ jsSplit sep y := by
  intro x
  induction x with
  | nil =>
    intro y acc
    simp [jsSplitAux, jsSplit]
  | cons c cs ih =>
    intro y acc
    by_cases hc : c = sep
    · subst hc
      simp only [List.cons_append, jsSplitAux, eq_self_iff_true, if_true,
        List.append_eq]
      rw [ih y []]
    · simp only [List.cons_append, jsSplitAux, if_neg hc]
      exact ih y (c :: acc)

theorem jsSplit_append_sep (sep : Char) (x y : List Char) :
    jsSplit sep (x ++ sep :: y) = jsSplit sep x ++ jsSplit sep y :=
  jsSplitAux_append_sep sep x y []

theorem jsSplitAux_no_sep (sep : Char) :
    ∀ (l acc : List Char), sep ∉ l → jsSplitAux sep l acc = [acc.reverse ++ l] := by
  intro l
  induction l with
  | nil => intro acc _; simp [jsSplitAux]
  | cons c cs ih =>
    intro acc hmem
    have hc : c ≠ sep := fun h => hmem (h ▸ List.mem_cons_self c cs)
    simp only [jsSplitAux, if_neg (fun h => hc h)]
    rw [ih (c :: acc) (fun h => hmem (List.mem_cons_of_mem c h))]
    simp

theorem jsSplit_no_sep (sep : Char) (l : List Char) (h : sep ∉ l) :
    jsSplit sep l = [l] := by
  unfold jsSplit
  rw [jsSplitAux_no_sep sep l [] h]
  rfl

theorem joinChar_cons_of_ne_nil (sep : Char) (l : List Char)
    {rest : List (List Char)} (h : rest ≠ []) :
    joinChar sep (l :: rest) = l ++ sep :: joinChar sep rest := by
  cases rest with
  | nil => exact absurd rfl h
  | cons r rs => rfl

theorem joinChar_jsSplitAux (sep : Char) :
    ∀ (l acc : List Char),
      joinChar sep (jsSplitAux sep l acc) = acc.reverse ++ l := by
  intro l
  induction l with
  | nil => intro acc; simp [jsSplitAux, joinChar]
  | cons c cs ih =>
    intro acc
    by_cases hc : c = sep
    · subst hc
      simp only [jsSplitAux, eq_self_iff_true, if_true]
      rw [joinChar_cons_of_ne_nil c acc.reverse (jsSplitAux_ne_nil c cs [])]
      rw [show jsSplitAux c cs [] = jsSplit c cs from rfl]
      have := ih ([] : List Char)
      rw [show jsSplitAux c cs [] = jsSplit c cs from rfl] at this
      rw [this]
      simp
    · simp only [jsSplitAux, if_neg hc]
      rw [ih (c :: acc)]
      simp

theorem joinChar_jsSplit (sep : Char) (l : List Char) :
    joinChar sep (jsSplit sep l) = l := by
  unfold jsSplit
  rw [joinChar_jsSplitAux sep l []]
  rfl

/-! ### The `/\r?\n/` line splitter -/

theorem splitLinesAux_newline (rest acc : List Char) :
    splitLinesAux ('\n' :: rest) acc = acc.reverse :: splitLinesAux rest [] := rfl

theorem splitLinesAux_other (c : Char) (rest acc : List Char)
    (h1 : c ≠ '\r') (h2 : c ≠ '\n') :
    splitLinesAux (c :: rest) acc = splitLinesAux rest (c :: acc) := by
  rw [splitLinesAux.eq_def]
  split
  · simp_all
  · simp_all
  · simp_all
  · rename_i heq
    cases heq
    rfl

theorem splitLinesAux_clean :
    ∀ (l acc : List Char), (∀ c ∈ l, c ≠ '\n' ∧ c ≠ '\r') →
      splitLinesAux l acc = [acc.reverse ++ l] := by
  intro l
  induction l with
  | nil => intro acc _; simp [splitLinesAux]
  | cons c cs ih =>
    intro acc hclean
    obtain ⟨hn, hr⟩ := hclean c (List.mem_cons_self c cs)
    rw [splitLinesAux_other c cs acc hr hn,
      ih (c :: acc) (fun d hd => hclean d (List.mem_cons_of_mem c hd))]
    simp

theorem splitLinesAux_append_newline :
    ∀ (l rest acc : List Char), (∀ c ∈ l, c ≠ '\n' ∧ c ≠ '\r') →
      splitLinesAux (l ++ '\n' :: rest) acc =
        (acc.reverse ++ l) :: splitLinesAux rest [] := by
  intro l
  induction l with
  | nil =>
    intro rest acc _
    simp [splitLinesAux_newline]
  | cons c cs ih =>
    intro rest acc hclean
    obtain ⟨hn, hr⟩ := hclean c (List.mem_cons_self c cs)
    rw [List.cons_append, splitLinesAux_other c _ acc hr hn,
      ih rest (c :: acc) (fun d hd => hclean d (List.mem_cons_of_mem c hd))]
    simp

theorem splitLinesJs_joinChar :
    ∀ (ls : List (List Char)), ls ≠ [] →
      (∀ l ∈ ls, ∀ c ∈ l, c ≠ '\n' ∧ c ≠ '\r') →
      splitLinesJs (joinChar '\n' ls) = ls := by
  intro ls
  induction ls with
  | nil => intro h _; exact absurd rfl h
  | cons l rest ih =>
    intro _ hclean
    cases rest with
    | nil =>
      unfold splitLinesJs joinChar
      rw [splitLinesAux_clean l [] (hclean l (List.mem_cons_self l []))]
      rfl
    | cons l₂ rs =>
      rw [joinChar_cons_of_ne_nil '\n' l (by simp)]
      unfold splitLinesJs
      rw [splitLinesAux_append_newline l _ []
        (hclean l (List.mem_cons_self l _))]
      have := ih (by simp) (fun m hm => hclean m (List.mem_cons_of_mem l hm))
      unfold splitLinesJs at this
      rw [this]
      rfl

theorem parseIntJs_of_digits {ds : List Char} (hne : ds ≠ [])
    (hall : ∀ c ∈ ds, isAsciiDigit c = true) :
    parseIntJs ds = some ((digitsToNat ds : ℕ) : ℤ) := by
  cases ds with
  | nil => exact absurd rfl hne
  | cons c cs =>
    have hdig : isAsciiDigit c = true := hall c (List.mem_cons_self c cs)
    unfold parseIntJs
    rw [dropWhile_eq_self_of_all (fun d hd => digit_not_ws (hall d hd))]
    dsimp only
    rw [if_neg (digit_char_ne hdig '-' (by decide)),
      if_neg (digit_char_ne hdig '+' (by decide))]
    have htake : leadingDigits (c :: cs) = c :: cs :=
      takeWhile_eq_self_of_all hall
    simp [htake]

/-! ### `formatMmSs` / `parseMmSs` -/

theorem ratTrunc_of_nonneg {q : ℚ} (h : 0 ≤ q) : ratTrunc q = ⌊q⌋ := by
  unfold ratTrunc
  rw [if_neg (not_lt.mpr h)]

theorem jsMod_sixty_spec (q : ℚ) (hq : 0 ≤ q) :
    jsMod q 60 = q - 60 * (⌊q / 60⌋ : ℚ) ∧ 0 ≤ jsMod q 60 ∧ jsMod q 60 < 60 := by
  have hdiv : (0 : ℚ) ≤ q / 60 := by positivity
  have heq : jsMod q 60 = q - 60 * (⌊q / 60⌋ : ℚ) := by
    unfold jsMod
    rw [ratTrunc_of_nonneg hdiv]
  refine ⟨heq, ?_, ?_⟩
  · rw [heq]
    have h1 : (⌊q / 60⌋ : ℚ) ≤ q / 60 := Int.floor_le _
    have h2 : (⌊q / 60⌋ : ℚ) * 60 ≤ q := by
      rw [← le_div_iff (by norm_num : (0 : ℚ) < 60)]
      exact h1
    linarith
  · rw [heq]
    have h1 : q / 60 < (⌊q / 60⌋ : ℚ) + 1 := Int.lt_floor_add_one _
    have h2 : q < ((⌊q / 60⌋ : ℚ) + 1) * 60 := by
      rw [← div_lt_iff (by norm_num : (0 : ℚ) < 60)]
      exact h1
    linarith

theorem floor_jsMod_sixty (q : ℚ) (hq : 0 ≤ q) :
    ⌊jsMod q 60⌋ = ⌊q⌋ - 60 * ⌊q / 60⌋ := by
  rw [(jsMod_sixty_spec q hq).1]
  have hcast : q - 60 * (⌊q / 60⌋ : ℚ) = q - ((60 * ⌊q / 60⌋ : ℤ) : ℚ) := by
    push_cast
    ring
  rw [hcast, Int.floor_sub_int]

theorem formatMmSs_nonneg_eq (q : ℚ) (hq : 0 ≤ q) :
    formatMmSs (some q) =
      natDigits (⌊q / 60⌋).toNat ++
        ':' :: padStart2 (natDigits (⌊jsMod q 60⌋).toNat) := by
  unfold formatMmSs
  dsimp only
  rw [if_neg (not_lt.mpr hq)]

theorem natDigits_length_le_two {n : Nat} (h : n < 100) :
    (natDigits n).length ≤ 2 := by
  unfold natDigits
  by_cases hn : n < 10
  · simp [natDigitsAux, hn]
  · have h10 : 10 ≤ n := by omega
    show (natDigitsAux (n + 1) n).length ≤ 2
    rw [show n + 1 = n + 1 from rfl]
    simp only [natDigitsAux, hn, if_false]
    have hdiv10 : n / 10 < 10 := by omega
    have hfuel : natDigitsAux n (n / 10) = natDigitsAux (n / 10 + 1) (n / 10) :=
      natDigitsAux_fuel (n / 10) n (n / 10 + 1)
        (Nat.div_lt_self (by omega) (by omega)) (Nat.lt_succ_self _)
    rw [hfuel]
    simp [natDigitsAux, hdiv10]

theorem padStart2_length {ds : List Char} (h : ds.length ≤ 2) :
    (padStart2 ds).length = 2 := by
  unfold padStart2
  split
  · simp only [List.length_append, List.length_replicate]
    omega
  · omega

theorem parseMmSs_formatMmSs (q : ℚ) (hq : 0 ≤ q) :
    mmSsShape (formatMmSs (some q)) = true ∧
    parseMmSs (formatMmSs (some q)) = some ((⌊q⌋ : ℤ) : ℚ) := by
  have hm0 : 0 ≤ ⌊q / 60⌋ := Int.floor_nonneg.mpr (by positivity)
  have hs0 : 0 ≤ ⌊jsMod q 60⌋ :=
    Int.floor_nonneg.mpr (jsMod_sixty_spec q hq).2.1
  have hs60 : ⌊jsMod q 60⌋ < 60 := by
    have := (jsMod_sixty_spec q hq).2.2
    exact Int.floor_lt.mpr (by exact_mod_cast this)
  have hdm_digits : ∀ c ∈ natDigits (⌊q / 60⌋).toNat, isAsciiDigit c = true :=
    fun c hc => natDigits_all_digits hc
  have hps_digits : ∀ c ∈ padStart2 (natDigits (⌊jsMod q 60⌋).toNat),
      isAsciiDigit c = true :=
    padStart2_all_digits (fun c hc => natDigits_all_digits hc)
  have hdm_ne : natDigits (⌊q / 60⌋).toNat ≠ [] := natDigits_ne_nil _
  have hps_ne : padStart2 (natDigits (⌊jsMod q 60⌋).toNat) ≠ [] :=
    padStart2_ne_nil (natDigits_ne_nil _)
  have hfmt := formatMmSs_nonneg_eq q hq
  have hnows : ∀ c ∈ natDigits (⌊q / 60⌋).toNat ++
      ':' :: padStart2 (natDigits (⌊jsMod q 60⌋).toNat),
      isJsWhitespace c = false := by
    intro c hc
    rcases List.mem_append.mp hc with hc | hc
    · exact digit_not_ws (hdm_digits c hc)
    · rcases List.mem_cons.mp hc with hc | hc
      · subst hc
        decide
      · exact digit_not_ws (hps_digits c hc)
  have hnocolon_dm : ':' ∉ natDigits (⌊q / 60⌋).toNat := fun hmem =>
    absurd (isAsciiDigit_bounds (hdm_digits _ hmem)).2 (by decide)
  have hnocolon_ps : ':' ∉ padStart2 (natDigits (⌊jsMod q 60⌋).toNat) := fun hmem =>
    absurd (isAsciiDigit_bounds (hps_digits _ hmem)).2 (by decide)
  have hsplit : jsSplit ':' (natDigits (⌊q / 60⌋).toNat ++
      ':' :: padStart2 (natDigits (⌊jsMod q 60⌋).toNat)) =
      [natDigits (⌊q / 60⌋).toNat, padStart2 (natDigits (⌊jsMod q 60⌋).toNat)] := by
    rw [jsSplit_append_sep, jsSplit_no_sep _ _ hnocolon_dm,
      jsSplit_no_sep _ _ hnocolon_ps]
    rfl
  have hps_len : (padStart2 (natDigits (⌊jsMod q 60⌋).toNat)).length = 2 :=
    padStart2_length (natDigits_length_le_two (by omega))
  have hps_val : digitsToNat (padStart2 (natDigits (⌊jsMod q 60⌋).toNat)) =
      (⌊jsMod q 60⌋).toNat := by
    rw [digitsToNat_padStart2, digitsToNat_natDigits]
  constructor
  · rw [hfmt]
    unfold mmSsShape
    rw [hsplit]
    have h1 : (natDigits (⌊q / 60⌋).toNat).isEmpty = false := by
      simpa [List.isEmpty_iff] using hdm_ne
    have h2 : (natDigits (⌊q / 60⌋).toNat).all isAsciiDigit = true :=
      List.all_eq_true.mpr hdm_digits
    have h3 : (padStart2 (natDigits (⌊jsMod q 60⌋).toNat)).all isAsciiDigit = true :=
      List.all_eq_true.mpr hps_digits
    simp only [h1, h2, h3, hps_len, hps_val, Bool.not_false, Bool.true_and,
      Bool.and_true, beq_self_eq_true, decide_eq_true_eq]
    omega
  · rw [hfmt]
    unfold parseMmSs
    rw [jsTrim_eq_self_of_no_ws hnows]
    have hne : (natDigits (⌊q / 60⌋).toNat ++
        ':' :: padStart2 (natDigits (⌊jsMod q 60⌋).toNat)).isEmpty = false := by
      simp [List.isEmpty_iff]
    rw [if_neg (by simp [hne])]
    rw [hsplit]
    rw [if_neg (by simp)]
    simp only [List.getD_cons_zero, List.getD_cons_succ]
    rw [parseIntJs_of_digits hdm_ne hdm_digits,
      parseIntJs_of_digits hps_ne hps_digits]
    rw [digitsToNat_natDigits, hps_val]
    dsimp only
    rw [if_neg (by
      simp only [Bool.or_eq_true, decide_eq_true_eq, not_or]
      refine ⟨⟨?_, ?_⟩, ?_⟩ <;> omega)]
    congr 1
    have hmint : ((⌊q / 60⌋).toNat : ℤ) = ⌊q / 60⌋ := Int.toNat_of_nonneg hm0
    have hsint : ((⌊jsMod q 60⌋).toNat : ℤ) = ⌊jsMod q 60⌋ := Int.toNat_of_nonneg hs0
    rw [hmint, hsint, floor_jsMod_sixty q hq]
    congr 1
    ring

theorem parseMmSs_some_shape (str : List Char) (q : ℚ)
    (h : parseMmSs str = some q) :
    0 ≤ q ∧ ∃ m s : ℤ, 0 ≤ m ∧ 0 ≤ s ∧ s < 60 ∧ q = ((m * 60 + s : ℤ) : ℚ) := by
  simp only [parseMmSs] at h
  split at h
  · exact absurd h (by simp)
  · split at h
    · exact absurd h (by simp)
    · rename_i hparts
      split at h
      · rename_i m s hm hs
        split at h
        · exact absurd h (by simp)
        · rename_i hcond
          simp only [Bool.or_eq_true, decide_eq_true_eq, not_or] at hcond
          obtain ⟨⟨hm0, hs0⟩, hs60⟩ := hcond
          rw [Option.some_inj] at h
          subst h
          refine ⟨?_, m, s, by omega, by omega, by omega, rfl⟩
          have : (0 : ℤ) ≤ m * 60 + s := by omega
          exact_mod_cast this
      · exact absurd h (by simp)

/-- C10 fails on the code as stated: `parseMmSs` is built on JavaScript
`parseInt`, which ignores trailing garbage, so the non-`"M:SS"`-shaped
string `"1:3x"` parses to 63 instead of `null`. -/
theorem parseMmSs_shape_counterexample :
    mmSsShape ['1', ':', '3', 'x'] = false ∧
    parseMmSs ['1', ':', '3', 'x'] = some 63 := by
  constructor
  · decide
  · decide

/-- C10 amended: `formatMmSs` is total, returning `"0:00"` for `null`
and for negative input, and for `0 ≤ q` it returns an `"M:SS"`-shaped
string with seconds below 60 that `parseMmSs` parses back to `⌊q⌋`;
`parseMmSs` only ever returns `m * 60 + s` with `m ≥ 0` and
`0 ≤ s < 60` — never a negative or malformed value — and it returns
`null` exactly on the `parseInt`-level failures (no single colon,
no leading digits in a field, negative minutes or seconds, or seconds
at least 60), with trailing non-digit characters in a field ignored
rather than rejected. -/
theorem formatMmSs_parseMmSs_props :
    formatMmSs none = ['0', ':', '0', '0'] ∧
    (∀ q : ℚ, q < 0 → formatMmSs (some q) = ['0', ':', '0', '0']) ∧
    (∀ q : ℚ, 0 ≤ q → mmSsShape (formatMmSs (some q)) = true ∧
       parseMmSs (formatMmSs (some q)) = some ((⌊q⌋ : ℤ) : ℚ)) ∧
    (∀ (str : List Char) (q : ℚ), parseMmSs str = some q →
       0 ≤ q ∧ ∃ m s : ℤ, 0 ≤ m ∧ 0 ≤ s ∧ s < 60 ∧
         q = ((m * 60 + s : ℤ) : ℚ)) := by
  refine ⟨rfl, ?_, parseMmSs_formatMmSs, parseMmSs_some_shape⟩
  intro q hq
  unfold formatMmSs
  dsimp only
  rw [if_pos hq]

theorem formatMmSs_parseMmSs_props_witness :
    parseMmSs (formatMmSs (some (61 : ℚ))) = some ((⌊(61 : ℚ)⌋ : ℤ) : ℚ) ∧
    formatMmSs (some (-7 : ℚ)) = ['0', ':', '0', '0'] := by
  constructor
  · exact ((formatMmSs_parseMmSs_props).2.2.1 61 (by norm_num)).2
  · exact (formatMmSs_parseMmSs_props).2.1 (-7) (by norm_num)

/-! ### The absolute-time seek mapper -/

theorem findFirstIdxAux_first (p : Nat → Bool) :
    ∀ (fuel k i : Nat), k ≤ i → i < k + fuel → p i = true →
      (∀ j, k ≤ j → j < i → p j = false) →
      findFirstIdxAux p fuel k = some i := by
  intro fuel
  induction fuel with
  | zero => intro k i hk hlt _ _; omega
  | succ g ih =>
    intro k i hk hlt hp hmin
    unfold findFirstIdxAux
    by_cases hpk : p k = true
    · have hki : k = i := by
        by_contra hne
        have hklt : k < i := by omega
        rw [hmin k le_rfl hklt] at hpk
        exact Bool.false_ne_true hpk
      rw [if_pos hpk, hki]
    · rw [if_neg hpk]
      have hki : k ≠ i := fun h => hpk (h ▸ hp)
      exact ih (k + 1) i (by omega) (by omega) hp
        (fun j hj hji => hmin j (by omega) hji)

theorem startTimesFrom_length (a : ℚ) :
    ∀ items : List ListItem, (startTimesFrom a items).length = items.length := by
  intro items
  induction items generalizing a with
  | nil => rfl
  | cons it rest ih =>
    simp only [startTimesFrom, List.length_cons]
    rw [ih]

theorem startTimesFrom_getD_zero (a : ℚ) (items : List ListItem)
    (h : items ≠ []) : (startTimesFrom a items).getD 0 0 = a := by
  cases items with
  | nil => exact absurd rfl h
  | cons it rest => rfl

theorem startTimesFrom_getD_succ :
    ∀ (items : List ListItem) (a : ℚ) (j : Nat), j + 1 < items.length →
      (startTimesFrom a items).getD (j + 1) 0 =
        (startTimesFrom a items).getD j 0 +
          getTrackLength (items.getD j default) := by
  intro items
  induction items with
  | nil => intro a j h; simp at h
  | cons it rest ih =>
    intro a j h
    cases j with
    | zero =>
      have hrest : rest ≠ [] := by
        intro hr
        rw [hr] at h
        simp at h
      show (startTimesFrom (a + getTrackLength it) rest).getD 0 0 =
        a + getTrackLength it
      exact startTimesFrom_getD_zero _ rest hrest
    | succ j2 =>
      show (startTimesFrom (a + getTrackLength it) rest).getD (j2 + 1) 0 =
        (startTimesFrom (a + getTrackLength it) rest).getD j2 0 +
          getTrackLength (rest.getD j2 default)
      exact ih (a + getTrackLength it) j2 (by simpa using h)

theorem startTimes_le (items : List ListItem)
    (hnn : ∀ it ∈ items, 0 ≤ getTrackLength it) (j i : Nat)
    (hji : j < i) (hi : i < items.length) :
    (getListStartTimes items).getD j 0 +
      getTrackLength (items.getD j default) ≤
      (getListStartTimes items).getD i 0 := by
  unfold getListStartTimes
  induction i, hji using Nat.le_induction with
  | base =>
    rw [startTimesFrom_getD_succ items 0 j hi]
  | succ i hji2 ih =>
    have hi2 : i < items.length := by omega
    have hlen : 0 ≤ getTrackLength (items.getD i default) := by
      apply hnn
      rw [List.getD_eq_getElem items default hi2]
      exact List.getElem_mem hi2
    have hstep := startTimesFrom_getD_succ items 0 i hi
    have := ih hi2
    unfold getListStartTimes at *
    linarith

/-- C2: `seekToAbsoluteListTime` clamps the requested time to
`[0, total]`, resolves the track whose prefix-sum interval
`[start, start + effectiveLength)` contains the clamped time, and sets
`positionInTrack` to the clamped time minus that track's start; on the
demo list with effective lengths `[10, 20, 5]`, time 15 resolves to
track 1 at offset 5, time 34 to track 2 at offset 4, time -5 clamps to
track 0 at offset 0, and time 1000 clamps to the last track at its
final offset. -/
theorem seekToAbsoluteListTime_resolution :
    (∀ (items : List ListItem) (ts : ℚ) (i : Nat),
       items ≠ [] →
       (∀ it ∈ items, 0 ≤ getTrackLength it) →
       i < items.length →
       (getListStartTimes items).getD i 0 ≤ clampListTime items ts →
       clampListTime items ts <
         (getListStartTimes items).getD i 0 +
           getTrackLength (items.getD i default) →
       ∃ r : SeekResult, seekToAbsoluteListTime items ts = some r ∧
         r.trackIndex = i ∧
         r.positionInTrack =
           clampListTime items ts - (getListStartTimes items).getD i 0) ∧
    seekToAbsoluteListTime seekDemoItems 15 = some ⟨1, 5, 0, 5⟩ ∧
    seekToAbsoluteListTime seekDemoItems 34 = some ⟨2, 4, 0, 4⟩ ∧
    seekToAbsoluteListTime seekDemoItems (-5) = some ⟨0, 0, 0, 0⟩ ∧
    seekToAbsoluteListTime seekDemoItems 1000 = some ⟨2, 5, 0, 5⟩ := by
  refine ⟨?_, ?_, ?_, ?_, ?_⟩
  · intro items ts i hne hnn hi h1 h2
    have hlen0 : ¬(items.length = 0) := by
      intro h
      exact hne (List.eq_nil_of_length_eq_zero h)
    have hfound : findFirstIdxAux
        (fun j => decide (clampListTime items ts <
          (getListStartTimes items).getD j 0 +
            getTrackLength (items.getD j default)))
        items.length 0 = some i := by
      apply findFirstIdxAux_first _ items.length 0 i (Nat.zero_le i)
        (by omega) (decide_eq_true h2)
      intro j _ hji
      rw [decide_eq_false_iff_not]
      push_neg
      calc (getListStartTimes items).getD j 0 +
            getTrackLength (items.getD j default) ≤
          (getListStartTimes items).getD i 0 :=
            startTimes_le items hnn j i hji hi
        _ ≤ clampListTime items ts := h1
    unfold seekToAbsoluteListTime
    rw [if_neg hlen0]
    dsimp only
    rw [hfound]
    exact ⟨_, rfl, rfl, rfl⟩
  · norm_num [seekToAbsoluteListTime, clampListTime, listTotalLength,
      getListStartTimes, startTimesFrom, getTrackLength, findFirstIdxAux,
      jsMod, ratTrunc, seekDemoItems]
  · norm_num [seekToAbsoluteListTime, clampListTime, listTotalLength,
      getListStartTimes, startTimesFrom, getTrackLength, findFirstIdxAux,
      jsMod, ratTrunc, seekDemoItems]
  · norm_num [seekToAbsoluteListTime, clampListTime, listTotalLength,
      getListStartTimes, startTimesFrom, getTrackLength, findFirstIdxAux,
      jsMod, ratTrunc, seekDemoItems]
  · norm_num [seekToAbsoluteListTime, clampListTime, listTotalLength,
      getListStartTimes, startTimesFrom, getTrackLength, findFirstIdxAux,
      jsMod, ratTrunc, seekDemoItems]

theorem seekToAbsoluteListTime_resolution_witness :
    ∃ r : SeekResult, seekToAbsoluteListTime seekDemoItems 15 = some r ∧
      r.trackIndex = 1 ∧
      r.positionInTrack =
        clampListTime seekDemoItems 15 -
          (getListStartTimes seekDemoItems).getD 1 0 :=
  (seekToAbsoluteListTime_resolution).1 seekDemoItems 15 1 (by decide)
    (by
      intro it hit
      fin_cases hit <;>
        norm_num [getTrackLength, seekDemoItems])
    (by decide)
    (by norm_num [clampListTime, listTotalLength, getListStartTimes,
      startTimesFrom, getTrackLength, seekDemoItems])
    (by norm_num [clampListTime, listTotalLength, getListStartTimes,
      startTimesFrom, getTrackLength, seekDemoItems])

/-! ### `findIndex` and the import reconciliation -/

theorem findIndexAux_some_spec {α : Type} (p : α → Bool) (d : α) :
    ∀ (l : List α) (k i : Nat), findIndexAux p l k = some i →
      k ≤ i ∧ i - k < l.length ∧ p (l.getD (i - k) d) = true ∧
      ∀ j < i - k, p (l.getD j d) = false := by
  intro l
  induction l with
  | nil => intro k i h; simp [findIndexAux] at h
  | cons x rest ih =>
    intro k i h
    unfold findIndexAux at h
    by_cases hpx : p x = true
    · rw [if_pos hpx, Option.some_inj] at h
      subst h
      exact ⟨le_rfl, by simp, by simpa using hpx, by omega⟩
    · rw [if_neg hpx] at h
      obtain ⟨hk, hlen, hp, hmin⟩ := ih (k + 1) i h
      refine ⟨by omega, by simp; omega, ?_, ?_⟩
      · have : i - k = (i - (k + 1)) + 1 := by omega
        rw [this]
        simpa using hp
      · intro j hj
        cases j with
        | zero => simpa using hpx
        | succ j2 =>
          have : j2 < i - (k + 1) := by omega
          simpa using hmin j2 this

theorem findIndexAux_eq_some_at {α : Type} (p : α → Bool) (d : α) :
    ∀ (l : List α) (k j : Nat), j < l.length → p (l.getD j d) = true →
      (∀ j2 < j, p (l.getD j2 d) = false) →
      findIndexAux p l k = some (k + j) := by
  intro l
  induction l with
  | nil => intro k j h; simp at h
  | cons x rest ih =>
    intro k j hj hp hmin
    unfold findIndexAux
    cases j with
    | zero =>
      rw [if_pos (by simpa using hp)]
      rfl
    | succ j2 =>
      have hx : p x = false := by simpa using hmin 0 (by omega)
      rw [if_neg (by simp [hx])]
      have := ih (k + 1) j2 (by simpa using hj) (by simpa using hp)
        (fun j3 hj3 => by simpa using hmin (j3 + 1) (by omega))
      rw [this]
      congr 1
      omega

theorem findIndexAux_isSome {α : Type} (p : α → Bool) (d : α) :
    ∀ (l : List α) (k : Nat), (∃ j, j < l.length ∧ p (l.getD j d) = true) →
      ∃ i, findIndexAux p l k = some i := by
  intro l
  induction l with
  | nil => intro k ⟨j, hj, _⟩; simp at hj
  | cons x rest ih =>
    intro k ⟨j, hj, hp⟩
    unfold findIndexAux
    by_cases hpx : p x = true
    · exact ⟨k, by rw [if_pos hpx]⟩
    · rw [if_neg hpx]
      apply ih (k + 1)
      cases j with
      | zero => exact absurd (by simpa using hp) hpx
      | succ j2 => exact ⟨j2, by simpa using hj, by simpa using hp⟩

theorem getD_append_right_general {α : Type} :
    ∀ (pre l2 : List α) (k : Nat) (d : α),
      (pre ++ l2).getD (pre.length + k) d = l2.getD k d := by
  intro pre
  induction pre with
  | nil => intro l2 k d; simp
  | cons x rest ih =>
    intro l2 k d
    have hidx : (x :: rest).length + k = (rest.length + k) + 1 := by
      simp only [List.length_cons]
      omega
    rw [List.cons_append, hidx, List.getD_cons_succ]
    exact ih l2 k d

theorem getD_append_at_length {α : Type} (pre : List α) (x : α)
    (rest : List α) (d : α) : (pre ++ x :: rest).getD pre.length d = x := by
  have := getD_append_right_general pre (x :: rest) 0 d
  simpa using this

theorem getD_append_left {α : Type} :
    ∀ (pre l2 : List α) (j : Nat) (d : α), j < pre.length →
      (pre ++ l2).getD j d = pre.getD j d := by
  intro pre
  induction pre with
  | nil => intro l2 j d h; simp at h
  | cons x rest ih =>
    intro l2 j d hj
    cases j with
    | zero => rfl
    | succ j2 => simpa using ih l2 j2 d (by simpa using hj)

theorem filter_unconsumed_perm :
    ∀ (current : List ListItem), (current.map ListItem.id).Nodup →
      ∀ (i : ListItem), i ∈ current → ∀ (used : List Nat), i.id ∉ used →
      List.Perm
        (current.filter (fun it => !decide (it.id ∈ used)))
        (i :: current.filter (fun it => !decide (it.id ∈ used ++ [i.id]))) := by
  intro current
  induction current with
  | nil => intro _ i hi; exact absurd hi (List.not_mem_nil i)
  | cons it cs ih =>
    intro hnd i hi used hiu
    have hnd2 : (cs.map ListItem.id).Nodup := by
      simpa using hnd.of_cons
    have hhead : it.id ∉ cs.map ListItem.id := by
      have := hnd
      rw [List.map_cons, List.nodup_cons] at this
      exact this.1
    rcases List.mem_cons.mp hi with heq | hmem
    · subst heq
      have hcongr : cs.filter (fun it2 => !decide (it2.id ∈ used)) =
          cs.filter (fun it2 => !decide (it2.id ∈ used ++ [i.id])) := by
        apply List.filter_congr
        intro x hx
        have hxne : x.id ≠ i.id := by
          intro hxe
          exact hhead (hxe ▸ List.mem_map_of_mem ListItem.id hx)
        simp [List.mem_append, hxne]
      rw [List.filter_cons, List.filter_cons]
      have h1 : (!decide (i.id ∈ used)) = true := by simpa using hiu
      have h2 : (!decide (i.id ∈ used ++ [i.id])) = false := by simp
      rw [h1, h2, hcongr]
      simp
    · have hne : it.id ≠ i.id := by
        intro he
        exact hhead (he ▸ List.mem_map_of_mem ListItem.id hmem)
      have hsame : (!decide (it.id ∈ used ++ [i.id])) = (!decide (it.id ∈ used)) := by
        simp [List.mem_append, hne]
      rw [List.filter_cons, List.filter_cons, hsame]
      by_cases hkeep : (!decide (it.id ∈ used)) = true
      · rw [hkeep]
        simp only [eq_self_iff_true, if_true]
        have := ih hnd2 i hmem used hiu
        exact (this.cons it).trans (List.Perm.swap i it _)
      · rw [Bool.eq_false_iff.mpr hkeep]
        rw [if_neg (by simp : ¬(false = true)),
          if_neg (by simp : ¬(false = true))]
        exact ih hnd2 i hmem used hiu

theorem jsFindIndex_some_spec {α : Type} (p : α → Bool) (d : α) (l : List α)
    (i : Nat) (h : jsFindIndex p l = some i) :
    i < l.length ∧ p (l.getD i d) = true := by
  obtain ⟨_, hlen, hp, _⟩ := findIndexAux_some_spec p d l 0 i h
  rw [Nat.sub_zero] at hlen hp
  exact ⟨hlen, hp⟩

theorem applyRows_strip_perm :
    ∀ (parsed : List ParsedRow) (current : List ListItem) (used : List Nat),
      (current.map ListItem.id).Nodup →
      List.Perm
        ((applyRows current parsed used).1.map stripLoopFields ++
          (current.filter
            (fun it => !decide (it.id ∈ (applyRows current parsed used).2))).map
              stripLoopFields)
        ((current.filter (fun it => !decide (it.id ∈ used))).map stripLoopFields) := by
  intro parsed
  induction parsed with
  | nil => intro current used _; simp [applyRows]
  | cons p rest ih =>
    intro current used hnd
    unfold applyRows
    cases hfind : jsFindIndex
        (fun it => decide (it.name = p.name) && !decide (it.id ∈ used)) current with
    | none => exact ih current used hnd
    | some idx =>
      obtain ⟨hlen, hp⟩ := jsFindIndex_some_spec _ default current idx hfind
      have hmem : current.getD idx default ∈ current := by
        rw [List.getD_eq_getElem current default hlen]
        exact List.getElem_mem hlen
      have hp2 := hp
      simp only [Bool.and_eq_true, decide_eq_true_eq, Bool.not_eq_true,
        decide_eq_false_iff_not] at hp2
      have hnotin : (current.getD idx default).id ∉ used := by
        simpa using hp2.2
      dsimp only
      have hstrip : stripLoopFields
          { current.getD idx default with
            loop := p.loop, maxLoopSeconds := p.maxLoopSeconds } =
          stripLoopFields (current.getD idx default) := rfl
      rw [List.map_cons, hstrip, List.cons_append]
      have hih := ih current (used ++ [(current.getD idx default).id]) hnd
      have hfp := filter_unconsumed_perm current hnd (current.getD idx default)
        hmem used hnotin
      have hfp2 := hfp.map stripLoopFields
      rw [List.map_cons] at hfp2
      exact (hih.cons (stripLoopFields (current.getD idx default))).trans hfp2.symm

theorem applyRows_provenance :
    ∀ (parsed : List ParsedRow) (current : List ListItem) (used : List Nat),
      (applyRows current parsed used).1.length ≤ parsed.length ∧
      ∀ x ∈ (applyRows current parsed used).1, ∃ p ∈ parsed, ∃ it ∈ current,
        it.name = p.name ∧
        x = { it with loop := p.loop, maxLoopSeconds := p.maxLoopSeconds } := by
  intro parsed
  induction parsed with
  | nil => intro current used; simp [applyRows]
  | cons p rest ih =>
    intro current used
    unfold applyRows
    cases hfind : jsFindIndex
        (fun it => decide (it.name = p.name) && !decide (it.id ∈ used)) current with
    | none =>
      obtain ⟨hl, hm⟩ := ih current used
      refine ⟨by simpa using Nat.le_succ_of_le hl, ?_⟩
      intro x hx
      obtain ⟨p2, hp2, it, hit, hname, hx2⟩ := hm x hx
      exact ⟨p2, List.mem_cons_of_mem p hp2, it, hit, hname, hx2⟩
    | some idx =>
      obtain ⟨hlen, hp⟩ := jsFindIndex_some_spec _ default current idx hfind
      have hp2 := hp
      simp only [Bool.and_eq_true, decide_eq_true_eq] at hp2
      have hmem : current.getD idx default ∈ current := by
        rw [List.getD_eq_getElem current default hlen]
        exact List.getElem_mem hlen
      dsimp only
      obtain ⟨hl, hm⟩ := ih current (used ++ [(current.getD idx default).id])
      constructor
      · simpa using Nat.succ_le_succ hl
      · intro x hx
        rcases List.mem_cons.mp hx with hx | hx
        · exact ⟨p, List.mem_cons_self p rest, current.getD idx default, hmem,
            hp2.1, hx⟩
        · obtain ⟨p2, hp2m, it, hit, hname, hx2⟩ := hm x hx
          exact ⟨p2, List.mem_cons_of_mem p hp2m, it, hit, hname, hx2⟩

/-- C4: `loadListData` matches parsed rows to loaded items by name with
first-unconsumed-wins, producing a rearrangement of the loaded items in
which every matched item carries its row's `loop`/`maxLoopSeconds` (no
item is created or lost), the unmatched loaded items form an untouched,
order-preserving suffix, the cursor follows the previously playing
item's id, a `null` cursor stays `null`; and importing rows `C, A` into
the list `A, B, C` (with `B` playing) yields `C, A, B` with `B`
untouched and the cursor on index 2. -/
theorem loadListData_reconciliation :
    (∀ (parsed : List ParsedRow) (s : StoreState),
       (s.items.map ListItem.id).Nodup →
       List.Perm ((loadListData parsed s).items.map stripLoopFields)
         (s.items.map stripLoopFields) ∧
       (∃ M U, (loadListData parsed s).items = M ++ U ∧ U.Sublist s.items ∧
          M.length ≤ parsed.length ∧
          ∀ x ∈ M, ∃ p ∈ parsed, ∃ it ∈ s.items, it.name = p.name ∧
            x = { it with loop := p.loop, maxLoopSeconds := p.maxLoopSeconds }) ∧
       (∀ (ci : Nat) (h : ci < s.items.length), s.currentIndex = some ci →
          ∃ (j : Nat) (hj : j < (loadListData parsed s).items.length),
            (loadListData parsed s).currentIndex = some j ∧
            ((loadListData parsed s).items.get ⟨j, hj⟩).id =
              (s.items.get ⟨ci, h⟩).id) ∧
       (s.currentIndex = none → (loadListData parsed s).currentIndex = none)) ∧
    loadListData demoRows sABC = sCAB := by
  refine ⟨?_, by decide⟩
  intro parsed s hnd
  by_cases hparsed : parsed.isEmpty
  · have hload : loadListData parsed s = s := by
      unfold loadListData
      rw [if_pos hparsed]
    rw [hload]
    refine ⟨List.Perm.refl _, ⟨[], s.items, by simp, List.Sublist.refl _,
      by simp, by simp⟩, ?_, fun hcn => hcn⟩
    intro ci h hc
    exact ⟨ci, h, hc, rfl⟩
  · have hload : loadListData parsed s =
        { s with
          items := (applyRows s.items parsed []).1 ++
            s.items.filter
              (fun it => !decide (it.id ∈ (applyRows s.items parsed []).2)),
          currentIndex :=
            match
              (match s.currentIndex with
               | some ci =>
                 if h : ci < s.items.length then some (s.items.get ⟨ci, h⟩).id
                 else none
               | none => none) with
            | some pid =>
              match jsFindIndex (fun it => decide (it.id = pid))
                  ((applyRows s.items parsed []).1 ++
                    s.items.filter
                      (fun it =>
                        !decide (it.id ∈ (applyRows s.items parsed []).2))) with
              | some i => some i
              | none => none
            | none => none } := by
      unfold loadListData
      rw [if_neg hparsed]
    have hperm : List.Perm
        (((applyRows s.items parsed []).1 ++
          s.items.filter
            (fun it => !decide (it.id ∈ (applyRows s.items parsed []).2))).map
              stripLoopFields)
        (s.items.map stripLoopFields) := by
      have hsp := applyRows_strip_perm parsed s.items [] hnd
      have hfe : s.items.filter (fun it => !decide (it.id ∈ ([] : List Nat))) =
          s.items := by
        apply List.filter_eq_self.mpr
        intro a _
        simp
      rw [hfe] at hsp
      rw [List.map_append]
      exact hsp
    have hidperm : List.Perm
        (((applyRows s.items parsed []).1 ++
          s.items.filter
            (fun it => !decide (it.id ∈ (applyRows s.items parsed []).2))).map
              ListItem.id)
        (s.items.map ListItem.id) := by
      have h1 := hperm.map ListItem.id
      rw [List.map_map, List.map_map] at h1
      have h2 : ∀ l : List ListItem,
          l.map (ListItem.id ∘ stripLoopFields) = l.map ListItem.id := by
        intro l
        apply List.map_congr_left
        intro a _
        rfl
      rw [h2, h2] at h1
      exact h1
    rw [hload]
    refine ⟨hperm, ⟨(applyRows s.items parsed []).1, _, rfl,
      List.filter_sublist _, (applyRows_provenance parsed s.items []).1,
      (applyRows_provenance parsed s.items []).2⟩, ?_, ?_⟩
    · intro ci h hc
      simp only [hc]
      rw [dif_pos h]
      dsimp only
      have hpidmem : (s.items.get ⟨ci, h⟩).id ∈
          ((applyRows s.items parsed []).1 ++
            s.items.filter
              (fun it =>
                !decide (it.id ∈ (applyRows s.items parsed []).2))).map
                ListItem.id := by
        apply (hidperm.mem_iff).mpr
        exact List.mem_map_of_mem ListItem.id (s.items.get_mem ci h)
      obtain ⟨x, hxmem, hxid⟩ := List.mem_map.mp hpidmem
      obtain ⟨jx, hjx, hjeq⟩ := List.mem_iff_getElem.mp hxmem
      have hfound := findIndexAux_isSome
        (fun it => decide (it.id = (s.items.get ⟨ci, h⟩).id)) default _ 0
        ⟨jx, hjx, by
          rw [List.getD_eq_getElem _ default hjx, hjeq]
          simpa using hxid⟩
      obtain ⟨i, hi⟩ := hfound
      have hi2 : jsFindIndex
          (fun it => decide (it.id = (s.items.get ⟨ci, h⟩).id))
          ((applyRows s.items parsed []).1 ++
            s.items.filter
              (fun it => !decide (it.id ∈ (applyRows s.items parsed []).2))) =
          some i := hi
      obtain ⟨hilen, hip⟩ := jsFindIndex_some_spec _ default _ i hi2
      refine ⟨i, hilen, ?_, ?_⟩
      · rw [hi2]
      · rw [List.get_eq_getElem, ← List.getD_eq_getElem _ default hilen]
        simpa using hip
    · intro hc
      simp only [hc]

theorem loadListData_reconciliation_witness :
    List.Perm ((loadListData demoRows sABC).items.map stripLoopFields)
      (sABC.items.map stripLoopFields) :=
  ((loadListData_reconciliation).1 demoRows sABC (by decide)).1

/-! ### `parseLine`: the last-two-fields rule -/

/-- C7 fails on the code as stated: the name is not the plain
tab-rejoin of the earlier fields — `parseLine` trims it (and the whole
line) first.  On the line `"a \t1\t0:30"` the rejoined earlier fields
are `"a "` but the parsed name is `"a"`. -/
theorem parseLine_name_counterexample :
    parseLine ['a', ' ', '\t', '1', '\t', '0', ':', '3', '0'] =
      some { name := ['a'], loop := true, maxLoopSeconds := some 30 } ∧
    joinChar '\t' ((jsSplit '\t'
        ['a', ' ', '\t', '1', '\t', '0', ':', '3', '0']).dropLast.dropLast) =
      ['a', ' '] ∧
    (['a'] : List Char) ≠ ['a', ' '] := by
  refine ⟨by decide, by decide, by decide⟩

/-- C7 amended: for a line whose trimmed content has three or more
tab-separated fields, `parseLine` takes the last two fields as the loop
flag and the max duration, and the name is the tab-rejoin of the
earlier fields, trimmed; an empty max field gives no cap and a
malformed one is handed to `parseMmSs`, which never produces a negative
or malformed value; and the lines of an import are parsed
independently, so a corrupt line affects only itself. -/
theorem parseLine_fields_and_isolation :
    (∀ line : List Char,
       3 ≤ (jsSplit '\t' (jsTrim line)).length →
       parseLine line = some {
         name := jsTrim (joinChar '\t'
           ((jsSplit '\t' (jsTrim line)).dropLast.dropLast)),
         loop := decide ((jsSplit '\t' (jsTrim line)).getD
           ((jsSplit '\t' (jsTrim line)).length - 2) [] = ['1']),
         maxLoopSeconds :=
           if (jsTrim ((jsSplit '\t' (jsTrim line)).getD
               ((jsSplit '\t' (jsTrim line)).length - 1) [])).isEmpty then none
           else parseMmSs (jsTrim ((jsSplit '\t' (jsTrim line)).getD
               ((jsSplit '\t' (jsTrim line)).length - 1) [])) }) ∧
    (∀ (str : List Char) (q : ℚ), parseMmSs str = some q → 0 ≤ q) ∧
    (∀ ls : List (List Char), (∀ l ∈ ls, ∀ c ∈ l, c ≠ '\n' ∧ c ≠ '\r') →
       textToList (joinChar '\n' ls) = ls.filterMap keepRow) := by
  refine ⟨?_, ?_, ?_⟩
  · intro line h3
    have hne : ¬(jsTrim line).isEmpty = true := by
      intro hemp
      have : jsTrim line = [] := by
        simpa [List.isEmpty_iff] using hemp
      rw [this] at h3
      simp [jsSplit, jsSplitAux] at h3
    unfold parseLine
    rw [if_neg hne, if_pos h3]
  · intro str q h
    exact (parseMmSs_some_shape str q h).1
  · intro ls hclean
    cases ls with
    | nil => decide
    | cons l rest =>
      unfold textToList
      rw [splitLinesJs_joinChar (l :: rest) (by simp) hclean]

theorem parseLine_fields_witness :
    parseLine ['x', '\t', '1', '\t', '0', ':', '3', '0'] =
      some { name := ['x'], loop := true, maxLoopSeconds := some 30 } := by
  have h := (parseLine_fields_and_isolation).1
    ['x', '\t', '1', '\t', '0', ':', '3', '0'] (by decide)
  rw [h]
  decide

/-! ### Serialization round-trip: auxiliary `trim`/`split` facts -/

theorem dropWhile_eq_self_of_head_not {p : Char → Bool} {l : List Char}
    (h : ∀ c, l.head? = some c → p c = false) : l.dropWhile p = l := by
  cases l with
  | nil => rfl
  | cons c cs =>
    rw [List.dropWhile_cons, if_neg (by simp [h c rfl])]

theorem head?_mem {α : Type} {l : List α} {c : α} (h : l.head? = some c) :
    c ∈ l := by
  cases l with
  | nil => simp at h
  | cons x xs =>
    rw [List.head?_cons, Option.some_inj] at h
    exact h ▸ List.mem_cons_self x xs

theorem getLast?_mem {α : Type} {l : List α} {c : α} (h : l.getLast? = some c) :
    c ∈ l := by
  rw [← List.head?_reverse] at h
  exact List.mem_reverse.mp (head?_mem h)

theorem jsTrim_eq_self_head_last {l : List Char}
    (hh : ∀ c, l.head? = some c → isJsWhitespace c = false)
    (hl : ∀ c, l.getLast? = some c → isJsWhitespace c = false) :
    jsTrim l = l := by
  unfold jsTrim
  rw [dropWhile_eq_self_of_head_not hh,
    dropWhile_eq_self_of_head_not (fun c hc =>
      hl c (by rw [← List.head?_reverse]; exact hc)),
    List.reverse_reverse]

theorem dropWhile_length_le {p : Char → Bool} :
    ∀ l : List Char, (l.dropWhile p).length ≤ l.length := by
  intro l
  induction l with
  | nil => simp
  | cons c cs ih =>
    rw [List.dropWhile_cons]
    split
    · exact le_trans ih (by simp)
    · exact le_refl _

theorem head?_append_left {α : Type} {l : List α} (m : List α) (h : l ≠ []) :
    (l ++ m).head? = l.head? := by
  cases l with
  | nil => exact absurd rfl h
  | cons c cs => rfl

theorem getLast?_append_right {α : Type} (x : List α) {y : List α} (h : y ≠ []) :
    (x ++ y).getLast? = y.getLast? := by
  rw [← List.head?_reverse, ← List.head?_reverse, List.reverse_append]
  exact head?_append_left x.reverse (by simpa using h)

theorem dropWhile_append_of_ne_nil {p : Char → Bool} :
    ∀ {l : List Char} (m : List Char), l.dropWhile p ≠ [] →
      (l ++ m).dropWhile p = l.dropWhile p ++ m := by
  intro l
  induction l with
  | nil => intro m h; exact absurd rfl h
  | cons c cs ih =>
    intro m h
    rw [List.dropWhile_cons] at h
    rw [List.cons_append, List.dropWhile_cons]
    by_cases hc : p c = true
    · rw [if_pos (by simp [hc])]
      rw [if_pos (by simp [hc])] at h
      rw [show List.dropWhile p (c :: cs) = List.dropWhile p cs from by
        rw [List.dropWhile_cons, if_pos (by simp [hc])]]
      exact ih m h
    · have hc2 : p c = false := Bool.eq_false_iff.mpr hc
      rw [if_neg (by simp [hc2])]
      rw [show List.dropWhile p (c :: cs) = c :: cs from by
        rw [List.dropWhile_cons, if_neg (by simp [hc2])]]
      rfl

theorem jsTrim_snoc_ws {c : Char} (hc : isJsWhitespace c = true)
    {l : List Char} (hl : l.dropWhile isJsWhitespace ≠ []) :
    jsTrim (l ++ [c]) = jsTrim l := by
  unfold jsTrim
  rw [dropWhile_append_of_ne_nil [c] hl, List.reverse_append]
  show ((c :: (l.dropWhile isJsWhitespace).reverse).dropWhile
    isJsWhitespace).reverse = _
  rw [List.dropWhile_cons, if_pos (by simp [hc])]

theorem dropWhile_eq_self_of_length {p : Char → Bool} :
    ∀ {l : List Char}, (l.dropWhile p).length = l.length → l.dropWhile p = l := by
  intro l
  cases l with
  | nil => intro _; rfl
  | cons c cs =>
    intro h
    by_cases hc : p c = true
    · exfalso
      rw [List.dropWhile_cons, if_pos (by simp [hc])] at h
      have := dropWhile_length_le (p := p) cs
      simp only [List.length_cons] at h
      omega
    · rw [List.dropWhile_cons, if_neg (by simp [Bool.eq_false_iff.mpr hc])]

theorem head_not_of_dropWhile_self {p : Char → Bool} {l : List Char}
    (h : l.dropWhile p = l) {c : Char} (hc : l.head? = some c) : p c = false := by
  cases l with
  | nil => simp at hc
  | cons c0 cs =>
    rw [List.head?_cons, Option.some_inj] at hc
    subst hc
    by_contra hp
    rw [Bool.not_eq_false] at hp
    rw [List.dropWhile_cons, if_pos (by simp [hp])] at h
    have hle := dropWhile_length_le (p := p) cs
    have hlen := congrArg List.length h
    simp only [List.length_cons] at hlen
    omega

theorem jsTrim_self_head_last {l : List Char} (h : jsTrim l = l) :
    (∀ c, l.head? = some c → isJsWhitespace c = false) ∧
    (∀ c, l.getLast? = some c → isJsWhitespace c = false) := by
  have hlen2 := dropWhile_length_le (p := isJsWhitespace)
    (l.dropWhile isJsWhitespace).reverse
  have hlenTrim : (jsTrim l).length = l.length := by rw [h]
  unfold jsTrim at hlenTrim
  rw [List.length_reverse] at hlenTrim
  rw [List.length_reverse] at hlen2
  have hle1 := dropWhile_length_le (p := isJsWhitespace) l
  have hd1 : (l.dropWhile isJsWhitespace).length = l.length := by omega
  have hdw : l.dropWhile isJsWhitespace = l := dropWhile_eq_self_of_length hd1
  rw [hdw] at hlenTrim
  have hdw2 : l.reverse.dropWhile isJsWhitespace = l.reverse :=
    dropWhile_eq_self_of_length (by rw [hlenTrim, List.length_reverse])
  constructor
  · intro c hc
    exact head_not_of_dropWhile_self hdw hc
  · intro c hc
    refine head_not_of_dropWhile_self hdw2 ?_
    rw [List.head?_reverse]
    exact hc

theorem formatMmSs_mem {x : Option ℚ} {c : Char} (hc : c ∈ formatMmSs x) :
    c = ':' ∨ isAsciiDigit c = true := by
  cases x with
  | none =>
    simp only [formatMmSs, List.mem_cons, List.not_mem_nil, or_false] at hc
    rcases hc with rfl | rfl | rfl | rfl
    · right; decide
    · left; rfl
    · right; decide
    · right; decide
  | some q =>
    unfold formatMmSs at hc
    dsimp only at hc
    by_cases hq : q < 0
    · rw [if_pos hq] at hc
      simp only [List.mem_cons, List.not_mem_nil, or_false] at hc
      rcases hc with rfl | rfl | rfl | rfl
      · right; decide
      · left; rfl
      · right; decide
      · right; decide
    · rw [if_neg hq] at hc
      rcases List.mem_append.mp hc with hc | hc
      · exact Or.inr (natDigits_all_digits hc)
      · rcases List.mem_cons.mp hc with rfl | hc
        · exact Or.inl rfl
        · exact Or.inr (padStart2_all_digits
            (fun d hd => natDigits_all_digits hd) c hc)

theorem formatMmSs_ne_nil (x : Option ℚ) : formatMmSs x ≠ [] := by
  cases x with
  | none => simp [formatMmSs]
  | some q =>
    unfold formatMmSs
    dsimp only
    by_cases hq : q < 0
    · rw [if_pos hq]
      simp
    · rw [if_neg hq]
      simp [natDigits_ne_nil]

theorem formatMmSs_mem_not_ws {x : Option ℚ} {c : Char}
    (hc : c ∈ formatMmSs x) : isJsWhitespace c = false := by
  rcases formatMmSs_mem hc with rfl | hd
  · decide
  · exact digit_not_ws hd

theorem formatMmSs_no_tab {x : Option ℚ} : '\t' ∉ formatMmSs x := by
  intro hmem
  rcases formatMmSs_mem hmem with heq | hd
  · exact absurd heq (by decide)
  · exact absurd (isAsciiDigit_bounds hd).1 (by decide)

theorem parseLine_serializeRow (row : ParsedRow)
    (hname : goodExportName row.name)
    (htab : row.maxLoopSeconds = none → '\t' ∉ row.name)
    (hmax : row.maxLoopSeconds = none ∨
      ∃ n : ℕ, row.maxLoopSeconds = some ((n : ℕ) : ℚ)) :
    parseLine (serializeRow row) = some row := by
  obtain ⟨rname, rloop, rmax⟩ := row
  obtain ⟨hne, htrim, hclean⟩ := hname
  obtain ⟨hhead, _⟩ := jsTrim_self_head_last htrim
  have hflag_ne : (if rloop then ['1'] else ['0']) ≠ [] := by
    split <;> simp
  have hflag_notab : '\t' ∉ (if rloop then ['1'] else ['0']) := by
    split <;> decide
  have hflag_digit : ∀ c ∈ (if rloop then ['1'] else ['0']),
      isAsciiDigit c = true := by
    split <;> decide
  have hflag_last_ws : ∀ c,
      (if rloop then ['1'] else ['0']).getLast? = some c →
      isJsWhitespace c = false := by
    intro c hc
    exact digit_not_ws (hflag_digit c (getLast?_mem hc))
  have hname_head : ∀ (m : List Char) (c : Char),
      (rname ++ m).head? = some c → isJsWhitespace c = false := by
    intro m c hc
    rw [head?_append_left m hne] at hc
    exact hhead c hc
  rcases hmax with hm | ⟨n, hm⟩
  · subst hm
    have hser : serializeRow ⟨rname, rloop, none⟩ =
        (rname ++ '\t' :: (if rloop then ['1'] else ['0'])) ++ ['\t'] := by
      unfold serializeRow
      dsimp only
    have hbase_trim : jsTrim (rname ++ '\t' :: (if rloop then ['1'] else ['0'])) =
        rname ++ '\t' :: (if rloop then ['1'] else ['0']) := by
      apply jsTrim_eq_self_head_last
      · exact hname_head _
      · intro c hc
        rw [getLast?_append_right rname (by simp),
          show ('\t' :: (if rloop then ['1'] else ['0'])) =
            ['\t'] ++ (if rloop then ['1'] else ['0']) from rfl,
          getLast?_append_right ['\t'] hflag_ne] at hc
        exact hflag_last_ws c hc
    have hdw : (rname ++ '\t' :: (if rloop then ['1'] else ['0'])).dropWhile
        isJsWhitespace ≠ [] := by
      rw [dropWhile_eq_self_of_head_not (hname_head _)]
      simp
    have ht : jsTrim (serializeRow ⟨rname, rloop, none⟩) =
        rname ++ '\t' :: (if rloop then ['1'] else ['0']) := by
      rw [hser, jsTrim_snoc_ws (by decide) hdw, hbase_trim]
    have hsplit : jsSplit '\t'
        (rname ++ '\t' :: (if rloop then ['1'] else ['0'])) =
        [rname, if rloop then ['1'] else ['0']] := by
      rw [jsSplit_append_sep, jsSplit_no_sep _ _ (htab rfl),
        jsSplit_no_sep _ _ hflag_notab]
      rfl
    unfold parseLine
    rw [ht]
    dsimp only
    rw [if_neg (by simp [hne]), hsplit]
    rw [if_neg (by simp), if_pos (by simp)]
    simp only [List.getD_cons_zero, List.getD_cons_succ, htrim]
    cases rloop
    · rw [show decide ((if (false : Bool) = true then ['1'] else ['0']) =
          (['1'] : List Char)) = false from by decide]
    · rw [show decide ((if (true : Bool) = true then ['1'] else ['0']) =
          (['1'] : List Char)) = true from by decide]
  · subst hm
    have hmmss_not_ws : ∀ c ∈ formatMmSs (some ((n : ℕ) : ℚ)),
        isJsWhitespace c = false := fun c hc => formatMmSs_mem_not_ws hc
    have hmmss_ne : formatMmSs (some ((n : ℕ) : ℚ)) ≠ [] := formatMmSs_ne_nil _
    have hser : serializeRow ⟨rname, rloop, some ((n : ℕ) : ℚ)⟩ =
        rname ++ '\t' :: ((if rloop then ['1'] else ['0']) ++
          '\t' :: formatMmSs (some ((n : ℕ) : ℚ))) := by
      unfold serializeRow
      dsimp only
      simp [List.append_assoc]
    have ht : jsTrim (serializeRow ⟨rname, rloop, some ((n : ℕ) : ℚ)⟩) =
        rname ++ '\t' :: ((if rloop then ['1'] else ['0']) ++
          '\t' :: formatMmSs (some ((n : ℕ) : ℚ))) := by
      rw [hser]
      apply jsTrim_eq_self_head_last
      · exact hname_head _
      · intro c hc
        rw [getLast?_append_right rname (by simp),
          show ('\t' :: ((if rloop then ['1'] else ['0']) ++
              '\t' :: formatMmSs (some ((n : ℕ) : ℚ)))) =
            ['\t'] ++ ((if rloop then ['1'] else ['0']) ++
              '\t' :: formatMmSs (some ((n : ℕ) : ℚ))) from rfl,
          getLast?_append_right ['\t'] (by simp [hflag_ne]),
          getLast?_append_right (if rloop then ['1'] else ['0']) (by simp),
          show ('\t' :: formatMmSs (some ((n : ℕ) : ℚ))) =
            ['\t'] ++ formatMmSs (some ((n : ℕ) : ℚ)) from rfl,
          getLast?_append_right ['\t'] hmmss_ne] at hc
        exact hmmss_not_ws c (getLast?_mem hc)
    have hmmss_notab : '\t' ∉ formatMmSs (some ((n : ℕ) : ℚ)) := formatMmSs_no_tab
    have hsplit : jsSplit '\t'
        (rname ++ '\t' :: ((if rloop then ['1'] else ['0']) ++
          '\t' :: formatMmSs (some ((n : ℕ) : ℚ)))) =
        jsSplit '\t' rname ++
          [if rloop then ['1'] else ['0'], formatMmSs (some ((n : ℕ) : ℚ))] := by
      rw [jsSplit_append_sep, jsSplit_append_sep,
        jsSplit_no_sep _ _ hflag_notab, jsSplit_no_sep _ _ hmmss_notab]
      rfl
    have hsn_ne : jsSplit '\t' rname ≠ [] := by
      intro h0
      have hj := joinChar_jsSplit '\t' rname
      rw [h0] at hj
      exact hne hj.symm
    have hlen1 : 1 ≤ (jsSplit '\t' rname).length := List.length_pos.mpr hsn_ne
    have hgd_last : (jsSplit '\t' rname ++
          [if rloop then ['1'] else ['0'], formatMmSs (some ((n : ℕ) : ℚ))]).getD
        ((jsSplit '\t' rname ++
          [if rloop then ['1'] else ['0'],
            formatMmSs (some ((n : ℕ) : ℚ))]).length - 1) [] =
        formatMmSs (some ((n : ℕ) : ℚ)) := by
      have h1 : (jsSplit '\t' rname ++
            [if rloop then ['1'] else ['0'],
              formatMmSs (some ((n : ℕ) : ℚ))]).length - 1 =
          (jsSplit '\t' rname).length + 1 := by
        simp
      rw [h1, getD_append_right_general]
      rfl
    have hgd_pen : (jsSplit '\t' rname ++
          [if rloop then ['1'] else ['0'], formatMmSs (some ((n : ℕ) : ℚ))]).getD
        ((jsSplit '\t' rname ++
          [if rloop then ['1'] else ['0'],
            formatMmSs (some ((n : ℕ) : ℚ))]).length - 2) [] =
        (if rloop then ['1'] else ['0']) := by
      have h2 : (jsSplit '\t' rname ++
            [if rloop then ['1'] else ['0'],
              formatMmSs (some ((n : ℕ) : ℚ))]).length - 2 =
          (jsSplit '\t' rname).length := by
        simp
      rw [h2]
      have h3 := getD_append_right_general (jsSplit '\t' rname)
        [if rloop then ['1'] else ['0'], formatMmSs (some ((n : ℕ) : ℚ))] 0
        ([] : List Char)
      simpa using h3
    have hdl : (jsSplit '\t' rname ++
          [if rloop then ['1'] else ['0'],
            formatMmSs (some ((n : ℕ) : ℚ))]).dropLast.dropLast =
        jsSplit '\t' rname := by
      rw [show jsSplit '\t' rname ++
            [if rloop then ['1'] else ['0'],
              formatMmSs (some ((n : ℕ) : ℚ))] =
          (jsSplit '\t' rname ++ [if rloop then ['1'] else ['0']]) ++
            [formatMmSs (some ((n : ℕ) : ℚ))] from by simp,
        List.dropLast_concat, List.dropLast_concat]
    have hmaxstr : jsTrim (formatMmSs (some ((n : ℕ) : ℚ))) =
        formatMmSs (some ((n : ℕ) : ℚ)) := by
      apply jsTrim_eq_self_head_last
      · intro c hc
        exact hmmss_not_ws c (head?_mem hc)
      · intro c hc
        exact hmmss_not_ws c (getLast?_mem hc)
    have hparse : parseMmSs (formatMmSs (some ((n : ℕ) : ℚ))) =
        some ((n : ℕ) : ℚ) := by
      have h := (parseMmSs_formatMmSs ((n : ℕ) : ℚ) (by positivity)).2
      rw [h, Int.floor_natCast]
      norm_cast
    unfold parseLine
    rw [ht]
    dsimp only
    rw [if_neg (by simp), hsplit]
    rw [if_pos (by
      simp only [List.length_append, List.length_cons, List.length_nil]
      omega)]
    have hmax_if : (if (formatMmSs (some ((n : ℕ) : ℚ))).isEmpty = true
          then (none : Option ℚ)
          else parseMmSs (formatMmSs (some ((n : ℕ) : ℚ)))) =
        parseMmSs (formatMmSs (some ((n : ℕ) : ℚ))) := by
      rw [if_neg (by simp [hmmss_ne])]
    rw [hdl, hgd_pen, hgd_last, joinChar_jsSplit, htrim, hmaxstr,
      hmax_if, hparse]
    cases rloop
    · rw [show decide ((if (false : Bool) = true then ['1'] else ['0']) =
          (['1'] : List Char)) = false from by decide]
    · rw [show decide ((if (true : Bool) = true then ['1'] else ['0']) =
          (['1'] : List Char)) = true from by decide]

theorem serializeRow_clean (row : ParsedRow)
    (hclean : ∀ c ∈ row.name, c ≠ '\n' ∧ c ≠ '\r') :
    ∀ c ∈ serializeRow row, c ≠ '\n' ∧ c ≠ '\r' := by
  intro c hc
  unfold serializeRow at hc
  simp only [List.mem_append, List.mem_cons, or_assoc] at hc
  rcases hc with h | rfl | h | rfl | h
  · exact hclean c h
  · exact ⟨by decide, by decide⟩
  · revert h
    split
    · intro h
      simp only [List.mem_singleton] at h
      subst h
      exact ⟨by decide, by decide⟩
    · intro h
      simp only [List.mem_singleton] at h
      subst h
      exact ⟨by decide, by decide⟩
  · exact ⟨by decide, by decide⟩
  · rcases hq : row.maxLoopSeconds with _ | q
    · rw [hq] at h
      cases h
    · rw [hq] at h
      rcases formatMmSs_mem h with rfl | hd
      · exact ⟨by decide, by decide⟩
      · obtain ⟨h1, _⟩ := isAsciiDigit_bounds hd
        constructor
        · intro hcc
          rw [hcc] at h1
          exact absurd h1 (by decide)
        · intro hcc
          rw [hcc] at h1
          exact absurd h1 (by decide)

theorem filterMap_eq_self_of {α : Type} (f : α → Option α) :
    ∀ (l : List α), (∀ x ∈ l, f x = some x) → l.filterMap f = l := by
  intro l
  induction l with
  | nil => intro _; rfl
  | cons x xs ih =>
    intro h
    rw [List.filterMap_cons, h x (List.mem_cons_self x xs)]
    rw [ih (fun y hy => h y (List.mem_cons_of_mem x hy))]

theorem textToList_listToText (rows : List ParsedRow) (hrows : rows ≠ [])
    (hclean : ∀ row ∈ rows, ∀ c ∈ row.name, c ≠ '\n' ∧ c ≠ '\r')
    (hparse : ∀ row ∈ rows, parseLine (serializeRow row) = some row)
    (hname : ∀ row ∈ rows, row.name ≠ []) :
    textToList (listToText rows) = rows := by
  unfold textToList listToText
  have hln : ∀ l ∈ rows.map serializeRow, ∀ c ∈ l, c ≠ '\n' ∧ c ≠ '\r' := by
    intro l hl
    obtain ⟨row, hrow, rfl⟩ := List.mem_map.mp hl
    exact serializeRow_clean row (hclean row hrow)
  rw [splitLinesJs_joinChar (rows.map serializeRow) (by simp [hrows]) hln]
  rw [List.filterMap_map]
  apply filterMap_eq_self_of
  intro row hrow
  show keepRow (serializeRow row) = some row
  unfold keepRow
  rw [hparse row hrow]
  dsimp only
  rw [if_neg (by simp [hname row hrow])]

theorem applyRows_exact :
    ∀ (post pre : List ListItem),
      ((pre ++ post).map ListItem.id).Nodup →
      applyRows (pre ++ post) (post.map rowOfItem) (pre.map ListItem.id) =
        (post, (pre ++ post).map ListItem.id) := by
  intro post
  induction post with
  | nil =>
    intro pre h
    simp [applyRows]
  | cons p rest ih =>
    intro pre h
    have hlt : pre.length < (pre ++ p :: rest).length := by simp
    have hpnotin : p.id ∉ pre.map ListItem.id := by
      simp only [List.map_append, List.map_cons] at h
      have hd := (List.nodup_append.mp h).2.2
      intro hin
      exact hd hin (List.mem_cons_self _ _)
    have hp : (fun it => decide (it.name = (rowOfItem p).name) &&
        !decide (it.id ∈ pre.map ListItem.id))
        ((pre ++ p :: rest).getD pre.length default) = true := by
      rw [getD_append_at_length]
      simp [hpnotin, rowOfItem]
    have hpre_false : ∀ it ∈ pre,
        (decide (it.name = (rowOfItem p).name) &&
          !decide (it.id ∈ pre.map ListItem.id)) = false := by
      intro it hit
      rw [decide_eq_true (List.mem_map_of_mem ListItem.id hit)]
      simp
    have hprev : ∀ j2 < pre.length,
        (fun it => decide (it.name = (rowOfItem p).name) &&
          !decide (it.id ∈ pre.map ListItem.id))
          ((pre ++ p :: rest).getD j2 default) = false := by
      intro j2 hj2
      rw [getD_append_left _ _ _ _ hj2, List.getD_eq_getElem _ _ hj2]
      exact hpre_false _ (List.getElem_mem _)
    have hfind : jsFindIndex
        (fun it => decide (it.name = (rowOfItem p).name) &&
          !decide (it.id ∈ pre.map ListItem.id)) (pre ++ p :: rest) =
        some pre.length := by
      have h0 := findIndexAux_eq_some_at
        (fun it => decide (it.name = (rowOfItem p).name) &&
          !decide (it.id ∈ pre.map ListItem.id)) default (pre ++ p :: rest)
        0 pre.length hlt hp hprev
      simpa [jsFindIndex] using h0
    simp only [List.map_cons, applyRows]
    rw [hfind]
    dsimp only
    rw [getD_append_at_length]
    have hused : pre.map ListItem.id ++ [p.id] =
        (pre ++ [p]).map ListItem.id := by simp
    have hcur : pre ++ p :: rest = (pre ++ [p]) ++ rest := by simp
    rw [hused, hcur, ih (pre ++ [p]) (by simpa using h)]
    rfl

/-- **C3** (corrected): exporting a list with `listToText` and
re-importing the text (`textToList` then `loadListData`) against the
same, unmodified item set reproduces the item list exactly — every
item's `loop` and `maxLoopSeconds` survive and `name`/`id`/`duration`/
analysis fields are untouched — provided the item ids are pairwise
distinct, every name is nonempty, trim-stable and free of line
terminators (and tab-free when its `maxLoopSeconds` is unset), and every
set `maxLoopSeconds` is a nonnegative whole number of seconds (the
values the `M:SS` codec can carry). -/
theorem listText_roundtrip (s : StoreState)
    (hids : (s.items.map ListItem.id).Nodup)
    (hnames : ∀ it ∈ s.items, goodExportName it.name)
    (htab : ∀ it ∈ s.items, it.maxLoopSeconds = none → '\t' ∉ it.name)
    (hmax : ∀ it ∈ s.items, it.maxLoopSeconds = none ∨
      ∃ n : ℕ, it.maxLoopSeconds = some ((n : ℕ) : ℚ)) :
    (loadListData (textToList (listToText (s.items.map rowOfItem))) s).items =
      s.items := by
  by_cases hnil : s.items = []
  · have hparsed :
        textToList (listToText (List.map rowOfItem ([] : List ListItem))) =
          [] := by decide
    rw [hnil, hparsed]
    unfold loadListData
    rw [if_pos (show ([] : List ParsedRow).isEmpty = true from rfl)]
    exact hnil
  · have hround : textToList (listToText (s.items.map rowOfItem)) =
        s.items.map rowOfItem := by
      apply textToList_listToText
      · simp [hnil]
      · intro row hrow
        obtain ⟨it, hit, rfl⟩ := List.mem_map.mp hrow
        exact (hnames it hit).2.2
      · intro row hrow
        obtain ⟨it, hit, rfl⟩ := List.mem_map.mp hrow
        exact parseLine_serializeRow (rowOfItem it) (hnames it hit)
          (htab it hit) (hmax it hit)
      · intro row hrow
        obtain ⟨it, hit, rfl⟩ := List.mem_map.mp hrow
        exact (hnames it hit).1
    rw [hround]
    unfold loadListData
    rw [if_neg (by simp [hnil])]
    dsimp only
    have happ : applyRows s.items (s.items.map rowOfItem) [] =
        (s.items, s.items.map ListItem.id) :=
      applyRows_exact s.items [] hids
    rw [happ]
    dsimp only
    have hfilter : s.items.filter
        (fun it => !decide (it.id ∈ s.items.map ListItem.id)) = [] := by
      rw [List.filter_eq_nil_iff]
      intro it hit
      simp [List.mem_map_of_mem ListItem.id hit]
    rw [hfilter, List.append_nil]

/-- C3 counterexample: the unrestricted round-trip law fails — a
(programmatically set) negative loop cap `-3` serializes through
`formatMmSs` as `"0:00"` and reimports as cap `0`, so the reimported
list differs from the original. -/
theorem listText_roundtrip_counterexample :
    (loadListData (textToList (listToText (sNeg.items.map rowOfItem)))
      sNeg).items ≠ sNeg.items := by decide

theorem listText_roundtrip_witness :
    ((sABC.items.map ListItem.id).Nodup ∧
      ∀ it ∈ sABC.items, goodExportName it.name) ∧
    (loadListData (textToList (listToText (sABC.items.map rowOfItem)))
      sABC).items = sABC.items := by
  refine ⟨⟨by decide, by decide⟩,
    listText_roundtrip sABC (by decide) (by decide) (by decide) ?_⟩
  intro it hit
  have hit2 : it = ⟨1, ['A'], false, none, some 5, none, none⟩ ∨
      it = ⟨2, ['B'], true, some 7, some 6, none, none⟩ ∨
      it = ⟨3, ['C'], false, none, some 4, none, none⟩ := by
    simpa [sABC] using hit
  rcases hit2 with rfl | rfl | rfl
  · exact Or.inl rfl
  · exact Or.inr ⟨7, by norm_num⟩
  · exact Or.inl rfl

end AudioPreview
